import Mathlib

/-!
Shallow embedding of `safe_list.hpp` (namespace `mjx`), an exception-safe
doubly-linked list.  Nodes live in an explicit heap (an association list from
numeric node identities to node records); a C++ `_Safe_list_node*` becomes
`Option Nat` (`none` = null pointer).  Allocation failure of
`_Construct_object` is driven by an explicit oracle (`List Bool`): each
allocation consumes the front entry, an empty oracle means every allocation
succeeds.  Operations that dereference pointers are partial: they return
`none` when the source would dereference a null (or already freed) pointer,
i.e. when the C++ has undefined behavior.  `max_size()` (a constant derived
from the address space in the source) is modelled as an explicit parameter
`msz`.  C++ `while` loops are rendered as counted/fuelled recursion; the fuel
choices are justified next to each definition.
-/

namespace SafeList

variable {α : Type} [DecidableEq α]

/-- `_Safe_list_node`: stored value plus next/prev links (null = `none`). -/
structure Node (α : Type) where
  next : Option Nat
  prev : Option Nat
  val  : α
deriving DecidableEq

/-- A heap: finite map from node identities to nodes, as an association list. -/
abbrev Heap (α : Type) := List (Nat × Node α)

/-- Read the node at identity `i` (first match). -/
def hfind : Heap α → Nat → Option (Node α)
  | [], _ => none
  | (j, nd) :: rest, i => if i = j then some nd else hfind rest i

/-- Overwrite the node at identity `i`; fails (`none`) if `i` is not allocated,
which corresponds to writing through a dangling pointer. -/
def hset : Heap α → Nat → Node α → Option (Heap α)
  | [], _, _ => none
  | (j, nd) :: rest, i, nd2 =>
    if i = j then some ((j, nd2) :: rest)
    else (hset rest i nd2).map (fun r => (j, nd) :: r)

/-- Free the node at identity `i` (`_Destroy_object` on a valid pointer). -/
def hdel : Heap α → Nat → Heap α
  | [], _ => []
  | (j, nd) :: rest, i => if i = j then hdel rest i else (j, nd) :: hdel rest i

/-- Allocator + heap state shared by all lists: the heap, a fresh-identity
counter, and the allocation-failure oracle. -/
structure Mem (α : Type) where
  heap  : Heap α
  fresh : Nat
  alloc : List Bool
deriving DecidableEq

/-- Every allocated identity is below the fresh counter. -/
def Mem.ok (m : Mem α) : Prop :=
  ∀ e ∈ m.heap, e.1 < m.fresh

instance (m : Mem α) : Decidable m.ok := by
  unfold Mem.ok; infer_instance

/-- One allocator decision: pop the oracle; empty oracle = success. -/
def allocStep : List Bool → Bool × List Bool
  | [] => (true, [])
  | b :: r => (b, r)

/-- `_Make_node` / `_Construct_object`: on success returns a fresh identity
holding `⟨null, null, v⟩` (the node constructor sets both links to null);
on failure returns a null pointer. -/
def makeNode (m : Mem α) (v : α) : Option Nat × Mem α :=
  let (ok, r) := allocStep m.alloc
  if ok then
    (some m.fresh, ⟨(m.fresh, ⟨none, none, v⟩) :: m.heap, m.fresh + 1, r⟩)
  else
    (none, ⟨m.heap, m.fresh, r⟩)

/-- `_Destroy_object`: no-op on a null pointer, otherwise frees the node. -/
def destroy (m : Mem α) (p : Option Nat) : Mem α :=
  match p with
  | none => m
  | some i => { m with heap := hdel m.heap i }

/-- Dereference a pointer: fails on null and on dangling pointers. -/
def deref (m : Mem α) (p : Option Nat) : Option (Node α) :=
  match p with
  | none => none
  | some i => hfind m.heap i

/-- `p->_Next = q`: fails if `p` is null or dangling. -/
def setNext (m : Mem α) (p : Option Nat) (q : Option Nat) : Option (Mem α) :=
  match p with
  | none => none
  | some i => do
    let nd ← hfind m.heap i
    let h ← hset m.heap i { nd with next := q }
    some { m with heap := h }

/-- `p->_Prev = q`: fails if `p` is null or dangling. -/
def setPrev (m : Mem α) (p : Option Nat) (q : Option Nat) : Option (Mem α) :=
  match p with
  | none => none
  | some i => do
    let nd ← hfind m.heap i
    let h ← hset m.heap i { nd with prev := q }
    some { m with heap := h }

/-- `p->_Value = v` (one half of a `std::swap` of stored values). -/
def setVal (m : Mem α) (p : Option Nat) (v : α) : Option (Mem α) :=
  match p with
  | none => none
  | some i => do
    let nd ← hfind m.heap i
    let h ← hset m.heap i { nd with val := v }
    some { m with heap := h }

/-- `_Safe_list_storage`: head pointer, tail pointer, element count. -/
structure Storage where
  head : Option Nat
  tail : Option Nat
  size : Nat
deriving DecidableEq

/-- The storage of a default-constructed list. -/
def Storage.empty : Storage := ⟨none, none, 0⟩

/-- `safe_list::empty()`: `_Mystorage._Size == 0`. -/
def emptyb (st : Storage) : Bool := st.size == 0

/-- `safe_list::front()`: null on an empty list, otherwise a view of the head
value (a failed head dereference of a malformed list also yields `none`). -/
def front (m : Mem α) (st : Storage) : Option α :=
  if st.size = 0 then none else (deref m st.head).map Node.val

/-- `safe_list::back()`. -/
def back (m : Mem α) (st : Storage) : Option α :=
  if st.size = 0 then none else (deref m st.tail).map Node.val

/-- `safe_list::push_back` (both overloads store one value `v`). -/
def push_back (msz : Nat) (m : Mem α) (st : Storage) (v : α) :
    Option (Bool × Mem α × Storage) :=
  if st.size = msz then some (false, m, st)
  else
    match makeNode m v with
    | (none, m1) => some (false, m1, st)
    | (some nid, m1) =>
      if st.size = 0 then
        some (true, m1, ⟨some nid, some nid, 1⟩)
      else do
        -- _Tail->_Next = new; _Tail->_Next->_Prev = _Tail; _Tail = _Tail->_Next
        let m2 ← setNext m1 st.tail (some nid)
        let m3 ← setPrev m2 (some nid) st.tail
        some (true, m3, { st with tail := some nid, size := st.size + 1 })

/-- `safe_list::push_front`. -/
def push_front (msz : Nat) (m : Mem α) (st : Storage) (v : α) :
    Option (Bool × Mem α × Storage) :=
  if st.size = msz then some (false, m, st)
  else
    match makeNode m v with
    | (none, m1) => some (false, m1, st)
    | (some nid, m1) =>
      if st.size = 0 then
        some (true, m1, ⟨some nid, some nid, 1⟩)
      else do
        -- _Head->_Prev = new; _Head->_Prev->_Next = _Head; _Head = _Head->_Prev
        let m2 ← setPrev m1 st.head (some nid)
        let m3 ← setNext m2 (some nid) st.head
        some (true, m3, { st with head := some nid, size := st.size + 1 })

/-- `safe_list::pop_back`: unconditional, no-op on empty. -/
def pop_back (m : Mem α) (st : Storage) : Option (Mem α × Storage) :=
  match st.size with
  | 0 => some (m, st)
  | 1 => some (destroy m st.head, Storage.empty)
  | _ + 2 => do
    -- _Tail->_Prev->_Next = nullptr; _Tail = _Tail->_Prev
    let tn ← deref m st.tail
    let m1 ← setNext m tn.prev none
    some (destroy m1 st.tail, { st with tail := tn.prev, size := st.size - 1 })

/-- `safe_list::pop_front`. -/
def pop_front (m : Mem α) (st : Storage) : Option (Mem α × Storage) :=
  match st.size with
  | 0 => some (m, st)
  | 1 => some (destroy m st.head, Storage.empty)
  | _ + 2 => do
    let hn ← deref m st.head
    let m1 ← setPrev m hn.next none
    some (destroy m1 st.head, { st with head := hn.next, size := st.size - 1 })

/-- `safe_list::insert(const_iterator, value)`.  `w` is the iterator's node
pointer; the source compares it against `cbegin()` (the head pointer) and
`cend()` (null) by pointer identity, and otherwise splices before `w`. -/
def insert1 (msz : Nat) (m : Mem α) (st : Storage) (w : Option Nat) (v : α) :
    Option (Option Nat × Mem α × Storage) :=
  if st.size = msz then some (none, m, st)
  else if st.size = 0 then do
    -- return push_back(_Value) ? begin() : iterator{}
    let (b, m1, st1) ← push_back msz m st v
    some (if b then st1.head else none, m1, st1)
  else
    match makeNode m v with
    | (none, m1) => some (none, m1, st)
    | (some nid, m1) =>
      if w = st.head then do
        -- _Head->_Prev = new; _Head->_Prev->_Next = _Head; _Head = _Head->_Prev
        let m2 ← setPrev m1 st.head (some nid)
        let m3 ← setNext m2 (some nid) st.head
        some (some nid, m3, { st with head := some nid, size := st.size + 1 })
      else if w = none then do
        -- new->_Prev = _Tail; _Tail->_Next = new; _Tail = _Tail->_Next
        let m2 ← setPrev m1 (some nid) st.tail
        let m3 ← setNext m2 st.tail (some nid)
        some (some nid, m3, { st with tail := some nid, size := st.size + 1 })
      else do
        -- inner: _Old_prev = _Node->_Prev; _Node->_Prev = new;
        -- new->_Prev = _Old_prev; new->_Next = _Node; _Old_prev->_Next = new
        let nd ← deref m1 w
        let m2 ← setPrev m1 w (some nid)
        let m3 ← setPrev m2 (some nid) nd.prev
        let m4 ← setNext m3 (some nid) w
        let m5 ← setNext m4 nd.prev (some nid)
        some (some nid, m5, { st with size := st.size + 1 })

/-- Loop body of the count form of `insert`: `while (_Count-- > 0) { _Iter =
insert(_Where, _Value); _Where = const_iterator{_Iter._Get_node()}; }`.
`iter` carries `_Iter` (default-constructed to null before the loop); note
that a failed insertion sets `_Where` to the null iterator without stopping
the loop. -/
def insertLoop (msz : Nat) (v : α) :
    Nat → Mem α → Storage → Option Nat → Option Nat →
    Option (Option Nat × Mem α × Storage)
  | 0, m, st, _, iter => some (iter, m, st)
  | c + 1, m, st, w, _ => do
    let (it, m1, st1) ← insert1 msz m st w v
    insertLoop msz v c m1 st1 it it

/-- `safe_list::insert(const_iterator, size_type, const value_type&)`. -/
def insertN (msz : Nat) (m : Mem α) (st : Storage) (w : Option Nat)
    (count : Nat) (v : α) : Option (Option Nat × Mem α × Storage) :=
  insertLoop msz v count m st w none

/-- Loop body of the range form of `insert`: after every insertion the source
evaluates `_Iter._Get_node()->_Next`, dereferencing the iterator produced by
the insertion — undefined behavior (`none`) when that insertion failed. -/
def insertRangeLoop (msz : Nat) :
    List α → Mem α → Storage → Option Nat → Option Nat →
    Option (Option Nat × Mem α × Storage)
  | [], m, st, _, iter => some (iter, m, st)
  | v :: rest, m, st, w, _ => do
    let (it, m1, st1) ← insert1 msz m st w v
    let nd ← deref m1 it
    insertRangeLoop msz rest m1 st1 nd.next it

/-- `safe_list::insert(const_iterator, _InIt, _InIt)` over the range's values. -/
def insertRange (msz : Nat) (m : Mem α) (st : Storage) (w : Option Nat)
    (vs : List α) : Option (Option Nat × Mem α × Storage) :=
  insertRangeLoop msz vs m st w none

/-- `safe_list::erase(const_iterator)`.  The source first handles the empty
list, then compares `w` with `cbegin()` (head pointer) and `cend()` (null),
and otherwise unlinks the inner node — dereferencing `_Node->_Next`, which is
undefined behavior when `w` is the tail of a list of size ≥ 2. -/
def erase1 (m : Mem α) (st : Storage) (w : Option Nat) :
    Option (Option Nat × Mem α × Storage) :=
  if st.size = 0 then some (none, m, st)
  else if w = st.head then do
    let hn ← deref m st.head
    let (m1, newHead) ←
      if hn.next ≠ none then do
        let mm ← setPrev m hn.next none
        some (mm, hn.next)
      else some (m, st.head)
    let m2 := destroy m1 st.head
    let st1 : Storage := { st with head := newHead, size := st.size - 1 }
    some (if st1.size > 0 then st1.head else none, m2, st1)
  else if w = none then do
    let tn ← deref m st.tail
    let (m1, newTail) ←
      if tn.prev ≠ none then do
        let mm ← setNext m tn.prev none
        some (mm, tn.prev)
      else some (m, st.tail)
    let m2 := destroy m1 st.tail
    let st1 : Storage := { st with tail := newTail, size := st.size - 1 }
    some (if st1.size > 0 then st1.tail else none, m2, st1)
  else do
    -- _Node->_Prev->_Next = _Node->_Next; _Node->_Next->_Prev = _Node->_Prev
    let nd ← deref m w
    let m1 ← setNext m nd.prev nd.next
    let m2 ← setPrev m1 nd.next nd.prev
    let m3 := destroy m2 w
    some (nd.next, m3, { st with size := st.size - 1 })

/-- `safe_list::_Delete_node` (used by `remove_if`): relinks around `_Node`,
leaving `_Head`/`_Tail` untouched when the deleted head has no successor. -/
def deleteNode (m : Mem α) (st : Storage) (i : Nat) :
    Option (Mem α × Storage) := do
  let nd ← hfind m.heap i
  let (m1, st1) ←
    if some i = st.head then
      if nd.next ≠ none then do
        let mm ← setPrev m nd.next none
        some (mm, { st with head := nd.next })
      else some (m, st)
    else if some i = st.tail then do
      let mm ← setNext m nd.prev none
      some (mm, { st with tail := nd.prev })
    else do
      let mm ← setNext m nd.prev nd.next
      let mm2 ← setPrev mm nd.next nd.prev
      some (mm2, st)
  some (destroy m1 (some i), { st1 with size := st1.size - 1 })

/-- Traversal loop of `remove_if`: `_Next` is captured before the predicate
test and possible deletion.  The fuel only bounds the loop (the source's
`for` walks until null); `heap.length + 1` steps suffice for any terminating
traversal because each visited pointer must be live. -/
def removeLoop (pred : α → Bool) :
    Nat → Mem α → Storage → Option Nat → Nat → Option (Nat × Mem α × Storage)
  | _, m, st, none, count => some (count, m, st)
  | 0, _, _, some _, _ => none
  | fuel + 1, m, st, some i, count => do
    let nd ← hfind m.heap i
    if pred nd.val then do
      let (m1, st1) ← deleteNode m st i
      removeLoop pred fuel m1 st1 nd.next (count + 1)
    else
      removeLoop pred fuel m st nd.next count

/-- `safe_list::remove_if`. -/
def remove_if (m : Mem α) (st : Storage) (pred : α → Bool) :
    Option (Nat × Mem α × Storage) :=
  if st.size = 0 then some (0, m, st)
  else removeLoop pred (m.heap.length + 1) m st st.head 0

/-- `safe_list::remove`: `remove_if` with an equality-to-value predicate. -/
def remove (m : Mem α) (st : Storage) (v : α) : Option (Nat × Mem α × Storage) :=
  remove_if m st (fun x => x == v)

/-- Loop of `reverse()`: two cursors walk inward swapping values; after each
advance the source tests `_Head->_Next == _Tail` (a dereference of the new
`_Head`).  Fuel `st.size` bounds the loop: the cursors close in by two
positions per iteration. -/
def revLoop (fuel : Nat) (m : Mem α) (h t : Option Nat) : Option (Mem α) :=
  match fuel with
  | 0 => none
  | fuel + 1 =>
    if h = t then some m
    else do
      let hn ← deref m h
      let tn ← deref m t
      -- std::swap(_Head->_Value, _Tail->_Value)
      let m1 ← setVal m h tn.val
      let m2 ← setVal m1 t hn.val
      let h1 := hn.next
      let t1 := tn.prev
      let hn1 ← deref m2 h1
      if hn1.next = t1 then do
        let tn1 ← deref m2 t1
        let m3 ← setVal m2 h1 tn1.val
        let m4 ← setVal m3 t1 hn1.val
        some m4
      else
        revLoop fuel m2 h1 t1

/-- `safe_list::reverse()`: no-op for size ≤ 1. -/
def reverse (m : Mem α) (st : Storage) : Option (Mem α × Storage) :=
  if st.size > 1 then (revLoop st.size m st.head st.tail).map (fun m1 => (m1, st))
  else some (m, st)

/-- Growing half of `resize`: `while (_Size != _New_size) if (!push_back(v))
return false;`.  A successful `push_back` increases `_Size` by exactly one,
so with `_Size < _New_size` the loop is the counted loop below. -/
def growLoop (msz : Nat) (v : α) :
    Nat → Mem α → Storage → Option (Bool × Mem α × Storage)
  | 0, m, st => some (true, m, st)
  | k + 1, m, st => do
    let (b, m1, st1) ← push_back msz m st v
    if b then growLoop msz v k m1 st1 else some (false, m1, st1)

/-- Shrinking half of `resize`: `while (_Size != _New_size) pop_back();`.
`pop_back` decreases a positive `_Size` by exactly one. -/
def shrinkLoop : Nat → Mem α → Storage → Option (Mem α × Storage)
  | 0, m, st => some (m, st)
  | k + 1, m, st => do
    let (m1, st1) ← pop_back m st
    shrinkLoop k m1 st1

/-- `safe_list::resize(new_size, value)`. -/
def resizeVal (msz : Nat) (m : Mem α) (st : Storage) (n : Nat) (v : α) :
    Option (Bool × Mem α × Storage) :=
  if st.size < n then growLoop msz v (n - st.size) m st
  else (shrinkLoop (st.size - n) m st).map (fun r => (true, r.1, r.2))

/-- `safe_list::resize(new_size)`: pushes default-constructed values `_Ty{}`. -/
def resizeDef [Inhabited α] (msz : Nat) (m : Mem α) (st : Storage) (n : Nat) :
    Option (Bool × Mem α × Storage) :=
  resizeVal msz m st n default

/-- `safe_list(count, value)`: default-constructs the storage, runs
`(void) resize(count, value)` and discards the boolean result. -/
def fillCtorVal (msz : Nat) (count : Nat) (v : α) (oracle : List Bool) :
    Option (Mem α × Storage) :=
  (resizeVal msz ⟨[], 0, oracle⟩ Storage.empty count v).map (fun r => (r.2.1, r.2.2))

/-- `safe_list(count)`: same with default-constructed values. -/
def fillCtorDef [Inhabited α] (msz : Nat) (count : Nat) (oracle : List Bool) :
    Option (Mem α × Storage) :=
  (resizeDef msz ⟨[], 0, oracle⟩ Storage.empty count).map (fun r => (r.2.1, r.2.2))

/-- `safe_list::_Append_node`: `push_back` without the `max_size()` check. -/
def appendNode (m : Mem α) (st : Storage) (v : α) :
    Option (Bool × Mem α × Storage) :=
  match makeNode m v with
  | (none, m1) => some (false, m1, st)
  | (some nid, m1) =>
    if st.size = 0 then
      some (true, m1, ⟨some nid, some nid, 1⟩)
    else do
      let m2 ← setNext m1 st.tail (some nid)
      let m3 ← setPrev m2 (some nid) st.tail
      some (true, m3, { st with tail := some nid, size := st.size + 1 })

/-- `safe_list::_Copy_list`'s range-for: read the current source node, append
its value to the destination, stop on failure, otherwise re-read the node and
advance along `_Next` (the C++ iterator increments after the body).  The fuel
only bounds the loop; the source chain has at most `heap.length` live nodes. -/
def copyLoop : Nat → Mem α → Storage → Option Nat → Option (Mem α × Storage)
  | _, m, dst, none => some (m, dst)
  | 0, _, _, some _ => none
  | fuel + 1, m, dst, some i => do
    let nd ← hfind m.heap i
    let (b, m1, dst1) ← appendNode m dst nd.val
    if b then do
      let nd1 ← hfind m1.heap i
      copyLoop fuel m1 dst1 nd1.next
    else
      some (m1, dst1)

/-- `safe_list::operator=(const safe_list&)` on two distinct lists: calls
`_Copy_list(_Other)` — appending to the existing contents, with no `clear()`. -/
def copyAssign (m : Mem α) (dst src : Storage) : Option (Mem α × Storage) :=
  copyLoop (m.heap.length + 1) m dst src.head

/-- `_Safe_list_storage::_Swap` on two distinct lists' storages. -/
def swapStorage (a b : Storage) : Storage × Storage := (b, a)

/-- `safe_list(safe_list&&)`: the new list default-constructs its storage and
swaps it with the source's.  Returns (destination storage, source storage). -/
def moveCtor (src : Storage) : Storage × Storage :=
  swapStorage Storage.empty src

/-- `safe_list::operator=(safe_list&&)` on two distinct lists: a bare storage
swap.  Returns (destination storage, source storage) after the assignment. -/
def moveAssign (dst src : Storage) : Storage × Storage :=
  swapStorage dst src

/-- A client pushing `vs` one by one via `push_back` (the round-trip scenario
of the spec). -/
def pushAll (msz : Nat) : List α → Mem α → Storage → Option (Mem α × Storage)
  | [], m, st => some (m, st)
  | v :: vs, m, st => do
    let (_, m1, st1) ← push_back msz m st v
    pushAll msz vs m1 st1

/-- Forward traversal reading exactly `n` values from `p` along `_Next`
(the first `size()` steps of iteration from `begin()`). -/
def valsN (m : Mem α) : Nat → Option Nat → Option (List α)
  | 0, _ => some []
  | n + 1, p => do
    let nd ← deref m p
    let rest ← valsN m n nd.next
    some (nd.val :: rest)

/-- Reverse traversal reading exactly `n` values from `p` along `_Prev`
(the first `size()` steps of iteration from `rbegin()`). -/
def rvalsN (m : Mem α) : Nat → Option Nat → Option (List α)
  | 0, _ => some []
  | n + 1, p => do
    let nd ← deref m p
    let rest ← rvalsN m n nd.prev
    some (nd.val :: rest)

/-! ## Chain representation

`seg h prev p xs q` says: starting at pointer `p`, whose first node's `_Prev`
is `prev`, the heap `h` holds exactly the doubly-linked segment `xs`
(identity/value pairs), with the last node's `_Next` equal to `q`.  A whole
list is a segment from `none` to `none`. -/

/-- Pointer to the first node of `xs`, or `q` if `xs` is empty. -/
def fp : List (Nat × α) → Option Nat → Option Nat
  | [], q => q
  | (i, _) :: _, _ => some i

/-- Identity of the last node of `xs`, or `prev` if `xs` is empty. -/
def lastPtr (prev : Option Nat) : List (Nat × α) → Option Nat
  | [] => prev
  | (i, _) :: rest => lastPtr (some i) rest

/-- The node identities of a chain. -/
def ids (xs : List (Nat × α)) : List Nat := xs.map Prod.fst

def seg (h : Heap α) : Option Nat → Option Nat → List (Nat × α) → Option Nat → Prop
  | _, p, [], q => p = q
  | prev, p, (i, v) :: rest, q =>
    p = some i ∧ hfind h i = some ⟨fp rest q, prev, v⟩ ∧
      seg h (some i) (fp rest q) rest q

instance segDec (h : Heap α) :
    ∀ (prev p : Option Nat) (xs : List (Nat × α)) (q : Option Nat),
      Decidable (seg h prev p xs q)
  | _, p, [], q => inferInstanceAs (Decidable (p = q))
  | prev, p, (i, v) :: rest, q =>
    have : Decidable (seg h (some i) (fp rest q) rest q) :=
      segDec h (some i) (fp rest q) rest q
    inferInstanceAs (Decidable (_ ∧ _ ∧ _))

/-- The storage invariant relating a list to its abstract chain `xs`:
the heap holds the chain from `head`, `tail` is the last node, `size` is the
length, and node identities are distinct. -/
def wf (m : Mem α) (st : Storage) (xs : List (Nat × α)) : Prop :=
  seg m.heap none st.head xs none ∧ st.tail = lastPtr none xs ∧
    st.size = xs.length ∧ (ids xs).Nodup

instance (m : Mem α) (st : Storage) (xs : List (Nat × α)) :
    Decidable (wf m st xs) := by
  unfold wf; infer_instance

/-! ## Heap lemmas -/

theorem hfind_mem {h : Heap α} {i : Nat} {nd : Node α}
    (hf : hfind h i = some nd) : (i, nd) ∈ h := by
  induction h with
  | nil => simp [hfind] at hf
  | cons e rest ih =>
    obtain ⟨j, nd'⟩ := e
    by_cases hij : i = j
    · subst hij
      simp [hfind] at hf
      subst hf
      exact List.mem_cons_self _ _
    · simp only [hfind, if_neg hij] at hf
      exact List.mem_cons_of_mem _ (ih hf)

theorem hset_isSome {h : Heap α} {i : Nat} {nd nd2 : Node α}
    (hf : hfind h i = some nd) : ∃ h2, hset h i nd2 = some h2 := by
  induction h with
  | nil => simp [hfind] at hf
  | cons e rest ih =>
    obtain ⟨j, nd'⟩ := e
    by_cases hij : i = j
    · exact ⟨(j, nd2) :: rest, by simp [hset, hij]⟩
    · simp only [hfind, if_neg hij] at hf
      obtain ⟨h2, hh2⟩ := ih hf
      exact ⟨(j, nd') :: h2, by simp [hset, hij, hh2]⟩

theorem hfind_hset_self {h h2 : Heap α} {i : Nat} {nd2 : Node α}
    (hs : hset h i nd2 = some h2) : hfind h2 i = some nd2 := by
  induction h generalizing h2 with
  | nil => simp [hset] at hs
  | cons e rest ih =>
    obtain ⟨j, nd'⟩ := e
    by_cases hij : i = j
    · simp only [hset, if_pos hij, Option.some.injEq] at hs
      subst hs
      simp [hfind, hij]
    · simp only [hset, if_neg hij, Option.map_eq_some'] at hs
      obtain ⟨r, hr, rfl⟩ := hs
      simp [hfind, hij, ih hr]

theorem hfind_hset_ne {h h2 : Heap α} {i : Nat} {nd2 : Node α}
    (hs : hset h i nd2 = some h2) {j : Nat} (hij : j ≠ i) :
    hfind h2 j = hfind h j := by
  induction h generalizing h2 with
  | nil => simp [hset] at hs
  | cons e rest ih =>
    obtain ⟨k, nd'⟩ := e
    by_cases hik : i = k
    · simp only [hset, if_pos hik, Option.some.injEq] at hs
      subst hs
      subst hik
      simp [hfind, if_neg hij]
    · simp only [hset, if_neg hik, Option.map_eq_some'] at hs
      obtain ⟨r, hr, rfl⟩ := hs
      by_cases hjk : j = k
      · simp [hfind, hjk]
      · simp [hfind, hjk, ih hr]

theorem mem_hset {h h2 : Heap α} {i : Nat} {nd2 : Node α}
    (hs : hset h i nd2 = some h2) :
    ∀ e ∈ h2, e = (i, nd2) ∨ e ∈ h := by
  induction h generalizing h2 with
  | nil => simp [hset] at hs
  | cons e0 rest ih =>
    obtain ⟨k, nd'⟩ := e0
    by_cases hik : i = k
    · simp only [hset, if_pos hik, Option.some.injEq] at hs
      subst hs
      subst hik
      intro e he
      rcases List.mem_cons.mp he with rfl | hm
      · exact Or.inl rfl
      · exact Or.inr (List.mem_cons_of_mem _ hm)
    · simp only [hset, if_neg hik, Option.map_eq_some'] at hs
      obtain ⟨r, hr, rfl⟩ := hs
      intro e he
      rcases List.mem_cons.mp he with rfl | hm
      · exact Or.inr (List.mem_cons_self _ _)
      · rcases ih hr e hm with h1 | h1
        · exact Or.inl h1
        · exact Or.inr (List.mem_cons_of_mem _ h1)

theorem hfind_hdel_self (h : Heap α) (i : Nat) : hfind (hdel h i) i = none := by
  induction h with
  | nil => simp [hdel, hfind]
  | cons e rest ih =>
    obtain ⟨j, nd'⟩ := e
    by_cases hij : i = j
    · simpa [hdel, hij] using ih
    · simp [hdel, hij, hfind, ih]

theorem hfind_hdel_ne (h : Heap α) {i j : Nat} (hij : j ≠ i) :
    hfind (hdel h i) j = hfind h j := by
  induction h with
  | nil => simp [hdel]
  | cons e rest ih =>
    obtain ⟨k, nd'⟩ := e
    by_cases hik : i = k
    · subst hik
      simp [hdel, hfind, if_neg hij, ih]
    · by_cases hjk : j = k
      · simp [hdel, hik, hfind, hjk]
      · simp [hdel, hik, hfind, hjk, ih]

theorem mem_hdel {h : Heap α} {i : Nat} :
    ∀ e ∈ hdel h i, e ∈ h := by
  induction h with
  | nil => simp [hdel]
  | cons e0 rest ih =>
    obtain ⟨j, nd'⟩ := e0
    by_cases hij : i = j
    · simp only [hdel, if_pos hij]
      exact fun e he => List.mem_cons_of_mem _ (ih e he)
    · simp only [hdel, if_neg hij]
      intro e he
      rcases List.mem_cons.mp he with rfl | hm
      · exact List.mem_cons_self _ _
      · exact List.mem_cons_of_mem _ (ih e hm)

theorem length_hdel_le (h : Heap α) (i : Nat) : (hdel h i).length ≤ h.length := by
  induction h with
  | nil => simp [hdel]
  | cons e rest ih =>
    obtain ⟨j, nd'⟩ := e
    by_cases hij : i = j
    · simp only [hdel, if_pos hij]
      exact Nat.le_succ_of_le ih
    · simpa [hdel, hij] using ih

theorem length_hset {h h2 : Heap α} {i : Nat} {nd2 : Node α}
    (hs : hset h i nd2 = some h2) : h2.length = h.length := by
  induction h generalizing h2 with
  | nil => simp [hset] at hs
  | cons e rest ih =>
    obtain ⟨k, nd'⟩ := e
    by_cases hik : i = k
    · simp only [hset, if_pos hik, Option.some.injEq] at hs
      subst hs
      simp
    · simp only [hset, if_neg hik, Option.map_eq_some'] at hs
      obtain ⟨r, hr, rfl⟩ := hs
      simp [ih hr]

/-! ## Segment lemmas -/

theorem seg_nil {h : Heap α} {prev p q : Option Nat} :
    seg h prev p [] q ↔ p = q := Iff.rfl

theorem seg_cons {h : Heap α} {prev p q : Option Nat} {i : Nat} {v : α}
    {rest : List (Nat × α)} :
    seg h prev p ((i, v) :: rest) q ↔
      p = some i ∧ hfind h i = some ⟨fp rest q, prev, v⟩ ∧
        seg h (some i) (fp rest q) rest q := Iff.rfl

theorem fp_append {xs ys : List (Nat × α)} {q : Option Nat} :
    fp (xs ++ ys) q = fp xs (fp ys q) := by
  cases xs <;> simp [fp]

theorem lastPtr_append {xs ys : List (Nat × α)} {prev : Option Nat} :
    lastPtr prev (xs ++ ys) = lastPtr (lastPtr prev xs) ys := by
  induction xs generalizing prev with
  | nil => simp [lastPtr]
  | cons e rest ih =>
    obtain ⟨i, v⟩ := e
    simp [lastPtr, ih]

theorem lastPtr_snoc {xs : List (Nat × α)} {prev : Option Nat} {j : Nat} {v : α} :
    lastPtr prev (xs ++ [(j, v)]) = some j := by
  rw [lastPtr_append]
  rfl

theorem seg_frame {h h2 : Heap α} {xs : List (Nat × α)}
    (hagree : ∀ j ∈ ids xs, hfind h2 j = hfind h j) :
    ∀ {prev p q : Option Nat}, seg h prev p xs q → seg h2 prev p xs q := by
  induction xs with
  | nil => intro prev p q hs; exact hs
  | cons e rest ih =>
    obtain ⟨i, v⟩ := e
    intro prev p q hs
    obtain ⟨rfl, hf, hrest⟩ := hs
    refine ⟨rfl, ?_, ?_⟩
    · rw [hagree i (by simp [ids])]; exact hf
    · exact ih (fun j hj => hagree j (by simp [ids]; exact Or.inr (by simpa [ids] using hj))) hrest

theorem seg_fp {h : Heap α} {xs : List (Nat × α)} {prev p q : Option Nat}
    (hs : seg h prev p xs q) : p = fp xs q := by
  cases xs with
  | nil => exact hs
  | cons e rest =>
    obtain ⟨i, v⟩ := e
    exact hs.1

theorem seg_append {h : Heap α} {xs ys : List (Nat × α)} :
    ∀ {prev p q : Option Nat},
      seg h prev p (xs ++ ys) q ↔
        seg h prev p xs (fp ys q) ∧ seg h (lastPtr prev xs) (fp ys q) ys q := by
  induction xs with
  | nil =>
    intro prev p q
    constructor
    · intro hs
      have hp := seg_fp hs
      subst hp
      exact ⟨rfl, hs⟩
    · rintro ⟨hp, hs⟩
      cases hp
      exact hs
  | cons e rest ih =>
    obtain ⟨i, v⟩ := e
    intro prev p q
    rw [List.cons_append]
    constructor
    · rintro ⟨rfl, hf, hrest⟩
      rw [fp_append] at hf hrest
      obtain ⟨h1, h2⟩ := ih.mp hrest
      exact ⟨⟨rfl, hf, h1⟩, by simpa [lastPtr] using h2⟩
    · rintro ⟨⟨rfl, hf, h1⟩, h2⟩
      refine ⟨rfl, by rw [fp_append]; exact hf, ?_⟩
      rw [fp_append]
      exact ih.mpr ⟨h1, by simpa [lastPtr] using h2⟩

theorem seg_singleton {h : Heap α} {prev p q : Option Nat} {i : Nat} {v : α} :
    seg h prev p [(i, v)] q ↔ p = some i ∧ hfind h i = some ⟨q, prev, v⟩ := by
  rw [seg_cons]
  simp [fp, seg_nil]

theorem seg_find_isSome {h : Heap α} {xs : List (Nat × α)} :
    ∀ {prev p q : Option Nat}, seg h prev p xs q →
      ∀ j ∈ ids xs, ∃ nd, hfind h j = some nd := by
  induction xs with
  | nil => intro _ _ _ _ j hj; simp [ids] at hj
  | cons e rest ih =>
    obtain ⟨i, v⟩ := e
    rintro prev p q ⟨rfl, hf, hrest⟩ j hj
    rcases (by simpa [ids] using hj : j = i ∨ j ∈ ids rest) with rfl | hm
    · exact ⟨_, hf⟩
    · exact ih hrest j hm

/-- Node identities of a well-formed chain are below the fresh counter. -/
theorem seg_ids_lt {m : Mem α} {xs : List (Nat × α)} {prev p q : Option Nat}
    (hok : m.ok) (hs : seg m.heap prev p xs q) :
    ∀ j ∈ ids xs, j < m.fresh := by
  intro j hj
  obtain ⟨nd, hf⟩ := seg_find_isSome hs j hj
  exact hok _ (hfind_mem hf)

/-- Forward traversal along a segment yields its values. -/
theorem valsN_of_seg {m : Mem α} {xs : List (Nat × α)} :
    ∀ {prev p q : Option Nat}, seg m.heap prev p xs q →
      valsN m xs.length p = some (xs.map Prod.snd) := by
  induction xs with
  | nil => intro _ _ _ _; simp [valsN]
  | cons e rest ih =>
    obtain ⟨i, v⟩ := e
    rintro prev p q ⟨rfl, hf, hrest⟩
    have hr := ih hrest
    simp [valsN, deref, hf, hr]

/-- Backward traversal from the end of a segment yields its reversed values,
then continues from the segment's `prev` pointer. -/
theorem rvalsN_of_seg {m : Mem α} {xs : List (Nat × α)} :
    ∀ {prev p q : Option Nat}, seg m.heap prev p xs q → ∀ k,
      rvalsN m (xs.length + k) (lastPtr prev xs) =
        (rvalsN m k prev).map (fun rest => (xs.map Prod.snd).reverse ++ rest) := by
  induction xs with
  | nil =>
    intro prev p q _ k
    simp [lastPtr, Option.map_id']
  | cons e rest ih =>
    obtain ⟨i, v⟩ := e
    rintro prev p q ⟨rfl, hf, hrest⟩ k
    have step : rvalsN m (k + 1) (some i) =
        (rvalsN m k prev).map (fun r => v :: r) := by
      cases hr : rvalsN m k prev with
      | none => simp [rvalsN, deref, hf, hr]
      | some l => simp [rvalsN, deref, hf, hr]
    have hlen : ((i, v) :: rest).length + k = rest.length + (k + 1) := by
      simp [List.length_cons]
      omega
    have hmain := ih hrest (k + 1)
    rw [show lastPtr prev ((i, v) :: rest) = lastPtr (some i) rest from rfl,
      hlen, hmain, step]
    cases rvalsN m k prev <;> simp


/-- Forward iteration over a well-formed list yields its value sequence. -/
theorem wf_valsN {m : Mem α} {st : Storage} {xs : List (Nat × α)}
    (hw : wf m st xs) : valsN m st.size st.head = some (xs.map Prod.snd) := by
  obtain ⟨hs, _, hlen, _⟩ := hw
  rw [hlen]
  exact valsN_of_seg hs

/-- Reverse iteration over a well-formed list yields the reversed sequence. -/
theorem wf_rvalsN {m : Mem α} {st : Storage} {xs : List (Nat × α)}
    (hw : wf m st xs) : rvalsN m st.size st.tail = some (xs.map Prod.snd).reverse := by
  obtain ⟨hs, htl, hlen, _⟩ := hw
  have h0 := rvalsN_of_seg hs 0
  rw [hlen, htl]
  simpa [rvalsN] using h0

/-! ## Pointer-write specifications -/

/-- What `setNext` does when the target is live. -/
theorem setNext_spec {m : Mem α} {i : Nat} {nd : Node α} (q : Option Nat)
    (hf : hfind m.heap i = some nd) :
    ∃ m2, setNext m (some i) q = some m2 ∧
      hfind m2.heap i = some { nd with next := q } ∧
      (∀ j, j ≠ i → hfind m2.heap j = hfind m.heap j) ∧
      m2.fresh = m.fresh ∧ m2.alloc = m.alloc ∧
      (∀ e ∈ m2.heap, e = (i, { nd with next := q }) ∨ e ∈ m.heap) ∧
      m2.heap.length = m.heap.length := by
  obtain ⟨h2, hh2⟩ :=
    (hset_isSome hf : ∃ h2, hset m.heap i { nd with next := q } = some h2)
  refine ⟨{ m with heap := h2 }, ?_, ?_, ?_, rfl, rfl, ?_, ?_⟩
  · simp [setNext, hf, hh2]
  · exact hfind_hset_self hh2
  · exact fun j hj => hfind_hset_ne hh2 hj
  · exact mem_hset hh2
  · exact length_hset hh2

/-- What `setPrev` does when the target is live. -/
theorem setPrev_spec {m : Mem α} {i : Nat} {nd : Node α} (q : Option Nat)
    (hf : hfind m.heap i = some nd) :
    ∃ m2, setPrev m (some i) q = some m2 ∧
      hfind m2.heap i = some { nd with prev := q } ∧
      (∀ j, j ≠ i → hfind m2.heap j = hfind m.heap j) ∧
      m2.fresh = m.fresh ∧ m2.alloc = m.alloc ∧
      (∀ e ∈ m2.heap, e = (i, { nd with prev := q }) ∨ e ∈ m.heap) ∧
      m2.heap.length = m.heap.length := by
  obtain ⟨h2, hh2⟩ :=
    (hset_isSome hf : ∃ h2, hset m.heap i { nd with prev := q } = some h2)
  refine ⟨{ m with heap := h2 }, ?_, ?_, ?_, rfl, rfl, ?_, ?_⟩
  · simp [setPrev, hf, hh2]
  · exact hfind_hset_self hh2
  · exact fun j hj => hfind_hset_ne hh2 hj
  · exact mem_hset hh2
  · exact length_hset hh2

/-- What `setVal` does when the target is live. -/
theorem setVal_spec {m : Mem α} {i : Nat} {nd : Node α} (v : α)
    (hf : hfind m.heap i = some nd) :
    ∃ m2, setVal m (some i) v = some m2 ∧
      hfind m2.heap i = some { nd with val := v } ∧
      (∀ j, j ≠ i → hfind m2.heap j = hfind m.heap j) ∧
      m2.fresh = m.fresh ∧ m2.alloc = m.alloc ∧
      (∀ e ∈ m2.heap, e = (i, { nd with val := v }) ∨ e ∈ m.heap) ∧
      m2.heap.length = m.heap.length := by
  obtain ⟨h2, hh2⟩ :=
    (hset_isSome hf : ∃ h2, hset m.heap i { nd with val := v } = some h2)
  refine ⟨{ m with heap := h2 }, ?_, ?_, ?_, rfl, rfl, ?_, ?_⟩
  · simp [setVal, hf, hh2]
  · exact hfind_hset_self hh2
  · exact fun j hj => hfind_hset_ne hh2 hj
  · exact mem_hset hh2
  · exact length_hset hh2

/-- `makeNode` when the next allocation succeeds. -/
theorem makeNode_success {m : Mem α} {v : α}
    (ha : m.alloc = [] ∨ ∃ r, m.alloc = true :: r) :
    makeNode m v =
      (some m.fresh,
        ⟨(m.fresh, ⟨none, none, v⟩) :: m.heap, m.fresh + 1, m.alloc.tail⟩) := by
  rcases ha with ha | ⟨r, ha⟩ <;> simp [makeNode, ha, allocStep]

/-- `makeNode` when the next allocation fails. -/
theorem makeNode_fail {m : Mem α} {v : α} {r : List Bool}
    (ha : m.alloc = false :: r) :
    makeNode m v = (none, ⟨m.heap, m.fresh, r⟩) := by
  simp [makeNode, ha, allocStep]

/-- A fresh identity is not yet allocated. -/
theorem hfind_fresh_none {m : Mem α} (hok : m.ok) : hfind m.heap m.fresh = none := by
  cases hf : hfind m.heap m.fresh with
  | none => rfl
  | some nd => exact absurd (hok _ (hfind_mem hf)) (by simp)

/-- An identity at least `fresh` is not allocated. -/
theorem hfind_ge_fresh_none {m : Mem α} (hok : m.ok) {j : Nat}
    (hj : m.fresh ≤ j) : hfind m.heap j = none := by
  cases hf : hfind m.heap j with
  | none => rfl
  | some nd => exact absurd (hok _ (hfind_mem hf)) (by omega)

/-- `hfind` on a freshly consed entry. -/
theorem hfind_cons_self {h : Heap α} {i : Nat} {nd : Node α} :
    hfind ((i, nd) :: h) i = some nd := by
  simp [hfind]

theorem hfind_cons_ne {h : Heap α} {i j : Nat} {nd : Node α} (hij : j ≠ i) :
    hfind ((i, nd) :: h) j = hfind h j := by
  simp [hfind, hij]

/-- Consing a fresh node preserves `Mem.ok` once the counter advances. -/
theorem ok_cons_fresh {m : Mem α} (hok : m.ok) (nd : Node α) (r : List Bool) :
    (⟨(m.fresh, nd) :: m.heap, m.fresh + 1, r⟩ : Mem α).ok := by
  intro e he
  rcases List.mem_cons.mp he with rfl | hm
  · simp
  · exact Nat.lt_succ_of_lt (hok _ hm)

/-- A heap update at a live identity preserves `Mem.ok`. -/
theorem ok_update {m m2 : Mem α} {i : Nat} {nd2 : Node α}
    (hok : m.ok) (hm : ∀ e ∈ m2.heap, e = (i, nd2) ∨ e ∈ m.heap)
    (hfr : m2.fresh = m.fresh) (hi : i < m.fresh) : m2.ok := by
  intro e he
  rw [hfr]
  rcases hm e he with rfl | hmem
  · exact hi
  · exact hok _ hmem

/-- `destroy` preserves `Mem.ok`. -/
theorem ok_destroy {m : Mem α} (hok : m.ok) (p : Option Nat) :
    (destroy m p).ok := by
  cases p with
  | none => exact hok
  | some i =>
    intro e he
    exact hok _ (mem_hdel e he)

theorem destroy_fresh (m : Mem α) (p : Option Nat) :
    (destroy m p).fresh = m.fresh := by
  cases p <;> rfl

theorem destroy_alloc (m : Mem α) (p : Option Nat) :
    (destroy m p).alloc = m.alloc := by
  cases p <;> rfl

theorem hfind_destroy_ne {m : Mem α} {i j : Nat} (hij : j ≠ i) :
    hfind (destroy m (some i)).heap j = hfind m.heap j :=
  hfind_hdel_ne m.heap hij

theorem ids_append {xs ys : List (Nat × α)} : ids (xs ++ ys) = ids xs ++ ids ys := by
  simp [ids]

theorem nodup_snoc {xs : List (Nat × α)} {t : Nat} {w : α}
    (h : (ids (xs ++ [(t, w)])).Nodup) : (ids xs).Nodup ∧ t ∉ ids xs := by
  rw [ids_append] at h
  have h2 := List.nodup_append.mp h
  exact ⟨h2.1, fun ht => h2.2.2 ht (by simp [ids])⟩

/-! ## Operation specifications -/

/-- `push_back` with room and a successful allocation appends a fresh node
at the tail; nothing else in the heap moves. -/
theorem push_back_success {msz : Nat} {m : Mem α} {st : Storage}
    {xs : List (Nat × α)} {v : α}
    (hok : m.ok) (hw : wf m st xs) (hsz : st.size ≠ msz)
    (ha : m.alloc = [] ∨ ∃ r, m.alloc = true :: r) :
    ∃ m2 st2, push_back msz m st v = some (true, m2, st2) ∧
      wf m2 st2 (xs ++ [(m.fresh, v)]) ∧ m2.ok ∧
      m2.fresh = m.fresh + 1 ∧ m2.alloc = m.alloc.tail ∧
      st2.size = st.size + 1 ∧
      (∀ j, j ≠ m.fresh → j ∉ ids xs → hfind m2.heap j = hfind m.heap j) ∧
      m2.heap.length = m.heap.length + 1 := by
  obtain ⟨hs, htl, hlen, hnd⟩ := hw
  rcases List.eq_nil_or_concat xs with rfl | ⟨ys, ⟨t, w⟩, hxs⟩
  · -- pushing into the empty list
    have hsz0 : st.size = 0 := by simpa using hlen
    refine ⟨⟨(m.fresh, ⟨none, none, v⟩) :: m.heap, m.fresh + 1, m.alloc.tail⟩,
      ⟨some m.fresh, some m.fresh, 1⟩, ?_, ?_, ?_, rfl, rfl, by simp [hsz0], ?_, by simp⟩
    · rw [hsz0] at hsz
      simp [push_back, hsz, makeNode_success ha, hsz0]
    · exact ⟨seg_singleton.mpr ⟨rfl, hfind_cons_self⟩, rfl, rfl, by simp [ids]⟩
    · exact ok_cons_fresh hok _ _
    · intro j hj _
      exact hfind_cons_ne hj
  · -- pushing onto a non-empty list: xs = ys ++ [(t, w)]
    rw [List.concat_eq_append] at hxs
    subst hxs
    have hsz0 : st.size ≠ 0 := by rw [hlen]; simp
    have hts : st.tail = some t := by rw [htl, lastPtr_snoc]
    have hlt := seg_ids_lt hok hs
    have htin : t ∈ ids (ys ++ [(t, w)]) := by simp [ids]
    have htlt : t < m.fresh := hlt t htin
    have htney : t ∉ ids ys := (nodup_snoc hnd).2
    obtain ⟨hseg1, hseg2⟩ := seg_append.mp hs
    have htfind : hfind m.heap t = some ⟨none, lastPtr none ys, w⟩ :=
      (seg_singleton.mp hseg2).2
    -- step 1: allocation
    set m1 : Mem α := ⟨(m.fresh, ⟨none, none, v⟩) :: m.heap, m.fresh + 1, m.alloc.tail⟩
      with hm1
    have hok1 : m1.ok := ok_cons_fresh hok _ _
    have hm1find : ∀ j, j ≠ m.fresh → hfind m1.heap j = hfind m.heap j :=
      fun j hj => hfind_cons_ne hj
    have hm1t : hfind m1.heap t = some ⟨none, lastPtr none ys, w⟩ := by
      rw [hm1find t (by omega)]; exact htfind
    -- step 2: _Tail->_Next = new
    obtain ⟨m2, he2, hset2, hne2, hfr2, hal2, hmem2, hlen2⟩ :=
      setNext_spec (m := m1) (some m.fresh) hm1t
    -- step 3: new->_Prev = _Tail
    have hm2fresh : hfind m2.heap m.fresh = some ⟨none, none, v⟩ := by
      rw [hne2 m.fresh (by omega)]
      exact hfind_cons_self
    obtain ⟨m3, he3, hset3, hne3, hfr3, hal3, hmem3, hlen3⟩ :=
      setPrev_spec (m := m2) (some t) hm2fresh
    have hfr : m3.fresh = m.fresh + 1 := by rw [hfr3, hfr2]
    have hok3 : m3.ok :=
      ok_update (ok_update hok1 hmem2 hfr2 (by omega)) hmem3 hfr3
        (by rw [hfr2]; omega)
    have hother : ∀ j, j ≠ m.fresh → j ≠ t → hfind m3.heap j = hfind m.heap j := by
      intro j hj1 hj2
      rw [hne3 j hj1, hne2 j hj2, hm1find j hj1]
    refine ⟨m3, { st with tail := some m.fresh, size := st.size + 1 }, ?_, ?_,
      hok3, hfr, by rw [hal3, hal2], rfl, ?_, by rw [hlen3, hlen2]; simp [hm1]⟩
    · simp only [push_back, if_neg hsz, makeNode_success ha, if_neg hsz0, hts]
      rw [show setNext m1 (some t) (some m.fresh) = some m2 from he2]
      simp [he3]
    · -- the new chain is well formed
      have hsegA1 : seg m3.heap none st.head ys (some t) := by
        refine seg_frame ?_ hseg1
        intro j hj
        exact hother j (by have := hlt j (by rw [ids_append]; exact List.mem_append_left _ hj); omega)
          (fun hjt => htney (hjt ▸ hj))
      have hsegA2 : seg m3.heap (lastPtr none ys) (some t) [(t, w)] (some m.fresh) := by
        refine seg_singleton.mpr ⟨rfl, ?_⟩
        have : hfind m3.heap t = hfind m2.heap t := hne3 t (by omega)
        rw [this, hset2]
      have hsegB : seg m3.heap (some t) (some m.fresh) [(m.fresh, v)] none :=
        seg_singleton.mpr ⟨rfl, hset3⟩
      refine ⟨?_, ?_, ?_, ?_⟩
      · rw [List.append_assoc]
        refine seg_append.mpr ⟨?_, ?_⟩
        · rw [show fp ([(t, w)] ++ [(m.fresh, v)]) none = some t from rfl]
          exact hsegA1
        · rw [show fp ([(t, w)] ++ [(m.fresh, v)]) none = some t from rfl]
          refine seg_append.mpr ⟨?_, ?_⟩
          · rw [show fp [(m.fresh, v)] none = some m.fresh from rfl]
            exact hsegA2
          · rw [show fp [(m.fresh, v)] none = some m.fresh from rfl,
              show lastPtr (lastPtr none ys) [(t, w)] = some t from rfl]
            exact hsegB
      · rw [lastPtr_snoc]
      · simp [hlen]
      · rw [ids_append]
        refine List.Nodup.append hnd (by simp [ids]) ?_
        intro a ha1 ha2
        have h1 : a < m.fresh := hlt a ha1
        have h2 : a = m.fresh := by simpa [ids] using ha2
        omega
    · intro j hj1 hj2
      rw [ids_append] at hj2
      exact hother j hj1 (fun hjt => hj2 (by simp [ids, hjt]))

/-- `push_back` at `max_size()`: fails without touching anything (not even
the allocation oracle). -/
theorem push_back_full {msz : Nat} {m : Mem α} {st : Storage} {v : α}
    (hsz : st.size = msz) : push_back msz m st v = some (false, m, st) := by
  simp [push_back, hsz]

/-- `push_back` under allocation failure: fails, consuming only the oracle. -/
theorem push_back_alloc_fail {msz : Nat} {m : Mem α} {st : Storage} {v : α}
    {r : List Bool} (hsz : st.size ≠ msz) (ha : m.alloc = false :: r) :
    push_back msz m st v = some (false, ⟨m.heap, m.fresh, r⟩, st) := by
  simp [push_back, hsz, makeNode_fail ha]

/-- `push_front` at `max_size()`. -/
theorem push_front_full {msz : Nat} {m : Mem α} {st : Storage} {v : α}
    (hsz : st.size = msz) : push_front msz m st v = some (false, m, st) := by
  simp [push_front, hsz]

/-- `push_front` under allocation failure. -/
theorem push_front_alloc_fail {msz : Nat} {m : Mem α} {st : Storage} {v : α}
    {r : List Bool} (hsz : st.size ≠ msz) (ha : m.alloc = false :: r) :
    push_front msz m st v = some (false, ⟨m.heap, m.fresh, r⟩, st) := by
  simp [push_front, hsz, makeNode_fail ha]

/-- `push_front` with room and a successful allocation prepends a fresh node. -/
theorem push_front_success {msz : Nat} {m : Mem α} {st : Storage}
    {xs : List (Nat × α)} {v : α}
    (hok : m.ok) (hw : wf m st xs) (hsz : st.size ≠ msz)
    (ha : m.alloc = [] ∨ ∃ r, m.alloc = true :: r) :
    ∃ m2 st2, push_front msz m st v = some (true, m2, st2) ∧
      wf m2 st2 ((m.fresh, v) :: xs) ∧ m2.ok ∧
      m2.fresh = m.fresh + 1 ∧ m2.alloc = m.alloc.tail ∧
      st2.size = st.size + 1 ∧
      (∀ j, j ≠ m.fresh → j ∉ ids xs → hfind m2.heap j = hfind m.heap j) ∧
      m2.heap.length = m.heap.length + 1 := by
  obtain ⟨hs, htl, hlen, hnd⟩ := hw
  cases xs with
  | nil =>
    have hsz0 : st.size = 0 := by simpa using hlen
    refine ⟨⟨(m.fresh, ⟨none, none, v⟩) :: m.heap, m.fresh + 1, m.alloc.tail⟩,
      ⟨some m.fresh, some m.fresh, 1⟩, ?_, ?_, ?_, rfl, rfl, by simp [hsz0], ?_, by simp⟩
    · rw [hsz0] at hsz
      simp [push_front, hsz, makeNode_success ha, hsz0]
    · exact ⟨seg_singleton.mpr ⟨rfl, hfind_cons_self⟩, rfl, rfl, by simp [ids]⟩
    · exact ok_cons_fresh hok _ _
    · intro j hj _
      exact hfind_cons_ne hj
  | cons e rest =>
    obtain ⟨hid, hv⟩ := e
    have hsz0 : st.size ≠ 0 := by rw [hlen]; simp
    obtain ⟨hhd, hhfind, hsrest⟩ := hs
    have hlt := seg_ids_lt hok (show seg m.heap none st.head ((hid, hv) :: rest) none from
      ⟨hhd, hhfind, hsrest⟩)
    have hhlt : hid < m.fresh := hlt hid (by simp [ids])
    have hhnr : hid ∉ ids rest := by
      have h2 : (hid :: ids rest).Nodup := hnd
      exact (List.nodup_cons.mp h2).1
    -- step 1: allocation
    set m1 : Mem α := ⟨(m.fresh, ⟨none, none, v⟩) :: m.heap, m.fresh + 1, m.alloc.tail⟩
      with hm1
    have hok1 : m1.ok := ok_cons_fresh hok _ _
    have hm1find : ∀ j, j ≠ m.fresh → hfind m1.heap j = hfind m.heap j :=
      fun j hj => hfind_cons_ne hj
    have hm1h : hfind m1.heap hid = some ⟨fp rest none, none, hv⟩ := by
      rw [hm1find hid (by omega)]
      exact hhfind
    -- step 2: _Head->_Prev = new
    obtain ⟨m2, he2, hset2, hne2, hfr2, hal2, hmem2, hlen2⟩ :=
      setPrev_spec (m := m1) (some m.fresh) hm1h
    -- step 3: new->_Next = _Head
    have hm2fresh : hfind m2.heap m.fresh = some ⟨none, none, v⟩ := by
      rw [hne2 m.fresh (by omega)]
      exact hfind_cons_self
    obtain ⟨m3, he3, hset3, hne3, hfr3, hal3, hmem3, hlen3⟩ :=
      setNext_spec (m := m2) (some hid) hm2fresh
    have hfr : m3.fresh = m.fresh + 1 := by rw [hfr3, hfr2]
    have hok3 : m3.ok :=
      ok_update (ok_update hok1 hmem2 hfr2 (by omega)) hmem3 hfr3
        (by rw [hfr2]; omega)
    have hother : ∀ j, j ≠ m.fresh → j ≠ hid → hfind m3.heap j = hfind m.heap j := by
      intro j hj1 hj2
      rw [hne3 j hj1, hne2 j hj2, hm1find j hj1]
    refine ⟨m3, { st with head := some m.fresh, size := st.size + 1 }, ?_, ?_,
      hok3, hfr, by rw [hal3, hal2], rfl, ?_, by rw [hlen3, hlen2]; simp [hm1]⟩
    · have hhd2 : st.head = some hid := hhd
      simp only [push_front, if_neg hsz, makeNode_success ha, if_neg hsz0, hhd2]
      rw [show setPrev m1 (some hid) (some m.fresh) = some m2 from he2]
      simp [he3]
    · refine ⟨?_, ?_, ?_, ?_⟩
      · refine ⟨rfl, hset3, ?_⟩
        rw [show fp ((hid, hv) :: rest) none = some hid from rfl]
        refine ⟨rfl, by rw [hne3 hid (by omega), hset2], ?_⟩
        refine seg_frame ?_ hsrest
        intro j hj
        have hjlt : j < m.fresh := hlt j (by simp [ids]; exact Or.inr (by simpa [ids] using hj))
        exact hother j (by omega) (fun hjh => hhnr (hjh ▸ hj))
      · rw [htl]
        rfl
      · simp [hlen]
      · refine List.nodup_cons.mpr ⟨?_, hnd⟩
        intro hmem
        have := hlt m.fresh hmem
        omega
    · intro j hj1 hj2
      exact hother j hj1 (fun hjh => hj2 (by simp [ids, hjh]))

/-- C6: for every list and value, `push_back` and `push_front` return `false`
exactly when the node allocation failed or the list is already at
`max_size()`; in the `false` case the heap and the storage are untouched
(same size, same element sequence), and on `true` the element is appended at
the corresponding end with the size increasing by exactly 1. -/
theorem push_failure_contract (msz : Nat) (m : Mem α) (st : Storage)
    (xs : List (Nat × α)) (v : α) (hok : m.ok) (hw : wf m st xs) :
    (∃ b m2 st2, push_back msz m st v = some (b, m2, st2) ∧
      (b = false ↔ st.size = msz ∨ m.alloc.head? = some false) ∧
      (b = false → m2.heap = m.heap ∧ st2 = st) ∧
      (b = true → wf m2 st2 (xs ++ [(m.fresh, v)]) ∧ st2.size = st.size + 1)) ∧
    (∃ b m2 st2, push_front msz m st v = some (b, m2, st2) ∧
      (b = false ↔ st.size = msz ∨ m.alloc.head? = some false) ∧
      (b = false → m2.heap = m.heap ∧ st2 = st) ∧
      (b = true → wf m2 st2 ((m.fresh, v) :: xs) ∧ st2.size = st.size + 1)) := by
  constructor
  · by_cases hsz : st.size = msz
    · exact ⟨false, m, st, push_back_full hsz, by simp [hsz], fun _ => ⟨rfl, rfl⟩,
        by simp⟩
    · match hal : m.alloc with
      | [] =>
        obtain ⟨m2, st2, he, hwf, _, _, _, hsize, _, _⟩ :=
          push_back_success hok hw hsz (Or.inl hal)
        exact ⟨true, m2, st2, he, by simp [hsz, hal], by simp, fun _ => ⟨hwf, hsize⟩⟩
      | true :: r =>
        obtain ⟨m2, st2, he, hwf, _, _, _, hsize, _, _⟩ :=
          push_back_success hok hw hsz (Or.inr ⟨r, hal⟩)
        exact ⟨true, m2, st2, he, by simp [hsz, hal], by simp, fun _ => ⟨hwf, hsize⟩⟩
      | false :: r =>
        exact ⟨false, ⟨m.heap, m.fresh, r⟩, st, push_back_alloc_fail hsz hal,
          by simp [hsz, hal], fun _ => ⟨rfl, rfl⟩, by simp⟩
  · by_cases hsz : st.size = msz
    · exact ⟨false, m, st, push_front_full hsz, by simp [hsz], fun _ => ⟨rfl, rfl⟩,
        by simp⟩
    · match hal : m.alloc with
      | [] =>
        obtain ⟨m2, st2, he, hwf, _, _, _, hsize, _, _⟩ :=
          push_front_success hok hw hsz (Or.inl hal)
        exact ⟨true, m2, st2, he, by simp [hsz, hal], by simp, fun _ => ⟨hwf, hsize⟩⟩
      | true :: r =>
        obtain ⟨m2, st2, he, hwf, _, _, _, hsize, _, _⟩ :=
          push_front_success hok hw hsz (Or.inr ⟨r, hal⟩)
        exact ⟨true, m2, st2, he, by simp [hsz, hal], by simp, fun _ => ⟨hwf, hsize⟩⟩
      | false :: r =>
        exact ⟨false, ⟨m.heap, m.fresh, r⟩, st, push_front_alloc_fail hsz hal,
          by simp [hsz, hal], fun _ => ⟨rfl, rfl⟩, by simp⟩

/-- Witness for C6 at a concrete input: the empty `Nat` list with room and a
succeeding allocator. -/
theorem push_failure_contract_witness :
    (∃ b m2 st2,
      push_back 10 (⟨[], 0, []⟩ : Mem Nat) Storage.empty 5 = some (b, m2, st2) ∧
      (b = false ↔ Storage.empty.size = 10 ∨
        (⟨[], 0, []⟩ : Mem Nat).alloc.head? = some false) ∧
      (b = false → m2.heap = (⟨[], 0, []⟩ : Mem Nat).heap ∧ st2 = Storage.empty) ∧
      (b = true → wf m2 st2 ([] ++ [((⟨[], 0, []⟩ : Mem Nat).fresh, 5)]) ∧
        st2.size = Storage.empty.size + 1)) ∧
    (∃ b m2 st2,
      push_front 10 (⟨[], 0, []⟩ : Mem Nat) Storage.empty 5 = some (b, m2, st2) ∧
      (b = false ↔ Storage.empty.size = 10 ∨
        (⟨[], 0, []⟩ : Mem Nat).alloc.head? = some false) ∧
      (b = false → m2.heap = (⟨[], 0, []⟩ : Mem Nat).heap ∧ st2 = Storage.empty) ∧
      (b = true → wf m2 st2 [((⟨[], 0, []⟩ : Mem Nat).fresh, 5)] ∧
        st2.size = Storage.empty.size + 1)) :=
  push_failure_contract 10 ⟨[], 0, []⟩ Storage.empty [] 5 (by decide) (by decide)

/-- Pushing a sequence of values with a succeeding allocator appends a chain
holding exactly those values. -/
theorem pushAll_success {msz : Nat} {vs : List α} :
    ∀ {m : Mem α} {st : Storage} {xs : List (Nat × α)},
      m.ok → wf m st xs → m.alloc = [] → xs.length + vs.length ≤ msz →
      ∃ m2 st2 news, pushAll msz vs m st = some (m2, st2) ∧
        wf m2 st2 (xs ++ news) ∧ m2.ok ∧ m2.alloc = [] ∧
        news.map Prod.snd = vs := by
  induction vs with
  | nil =>
    intro m st xs hok hw hal _
    exact ⟨m, st, [], rfl, by simpa using hw, hok, hal, rfl⟩
  | cons v vs ih =>
    intro m st xs hok hw hal hle
    have hsz : st.size ≠ msz := by
      have h1 := hw.2.2.1
      simp only [List.length_cons] at hle
      omega
    obtain ⟨m1, st1, he1, hw1, hok1, _, hal1, _, _, _⟩ :=
      push_back_success (v := v) hok hw hsz (Or.inl hal)
    rw [hal] at hal1
    obtain ⟨m2, st2, news, he2, hw2, hok2, hal2, hvs⟩ :=
      ih hok1 hw1 hal1 (by simp at hle ⊢; omega)
    refine ⟨m2, st2, (m.fresh, v) :: news, ?_, ?_, hok2, hal2, by simp [hvs]⟩
    · simp [pushAll, he1, he2]
    · simpa [List.append_assoc] using hw2

/-- C8: pushing `x1..xn` via `push_back` onto an empty list (all allocations
succeeding) makes forward traversal from `begin()` yield `x1..xn` and reverse
traversal from `rbegin()` yield `xn..x1`. -/
theorem push_back_round_trip (msz : Nat) (vs : List α) (m : Mem α) (st : Storage)
    (hok : m.ok) (hw : wf m st []) (hal : m.alloc = []) (hsz : vs.length ≤ msz) :
    ∃ m2 st2, pushAll msz vs m st = some (m2, st2) ∧ st2.size = vs.length ∧
      valsN m2 st2.size st2.head = some vs ∧
      rvalsN m2 st2.size st2.tail = some vs.reverse := by
  obtain ⟨m2, st2, news, he, hw2, _, _, hvs⟩ :=
    pushAll_success hok hw hal (by simpa using hsz)
  rw [List.nil_append] at hw2
  have hlen : st2.size = vs.length := by
    rw [hw2.2.2.1, ← hvs, List.length_map]
  refine ⟨m2, st2, he, hlen, ?_, ?_⟩
  · rw [wf_valsN hw2, hvs]
  · rw [wf_rvalsN hw2, hvs]

/-- Witness for C8 on a concrete three-element sequence. -/
theorem push_back_round_trip_witness :
    ∃ m2 st2, pushAll 10 [4, 7, 9] (⟨[], 0, []⟩ : Mem Nat) Storage.empty =
        some (m2, st2) ∧ st2.size = [4, 7, 9].length ∧
      valsN m2 st2.size st2.head = some [4, 7, 9] ∧
      rvalsN m2 st2.size st2.tail = some [4, 7, 9].reverse :=
  push_back_round_trip 10 [4, 7, 9] ⟨[], 0, []⟩ Storage.empty
    (by decide) (by decide) rfl (by decide)

/-- Counterexample for C3: two well-formed singleton lists in a shared heap;
after move-assignment the source holds the destination's prior element, so it
does not become empty. -/
theorem moveAssign_source_not_empty :
    wf (⟨[(0, ⟨none, none, 1⟩), (1, ⟨none, none, 2⟩)], 2, []⟩ : Mem Nat)
      ⟨some 0, some 0, 1⟩ [(0, 1)] ∧
    wf (⟨[(0, ⟨none, none, 1⟩), (1, ⟨none, none, 2⟩)], 2, []⟩ : Mem Nat)
      ⟨some 1, some 1, 1⟩ [(1, 2)] ∧
    (moveAssign (⟨some 0, some 0, 1⟩ : Storage) ⟨some 1, some 1, 1⟩).2.size = 1 := by
  refine ⟨?_, ?_, rfl⟩ <;> decide

/-- C3 (amended): move-construction transfers the source's chain to the new
list and leaves the source empty; move-assignment between two distinct lists
is a bare storage swap, so the destination receives the source's prior
elements but the source receives the destination's prior elements — it
becomes empty exactly when the destination was empty. -/
theorem move_semantics (m : Mem α) :
    (∀ (src : Storage) (xs : List (Nat × α)), wf m src xs →
      wf m (moveCtor src).1 xs ∧ (moveCtor src).2 = Storage.empty ∧
        wf m (moveCtor src).2 []) ∧
    (∀ (dst src : Storage) (xs ys : List (Nat × α)), wf m dst xs → wf m src ys →
      wf m (moveAssign dst src).1 ys ∧ wf m (moveAssign dst src).2 xs ∧
        ((moveAssign dst src).2.size = 0 ↔ xs = [])) := by
  constructor
  · intro src xs hw
    exact ⟨hw, rfl, rfl, rfl, rfl, List.nodup_nil⟩
  · intro dst src xs ys hw1 hw2
    refine ⟨hw2, hw1, ?_⟩
    rw [show (moveAssign dst src).2 = dst from rfl, hw1.2.2.1]
    simp [List.length_eq_zero]

/-- Witness for C3's amended theorem at concrete singleton lists. -/
theorem move_semantics_witness :
    (wf (⟨[(0, ⟨none, none, 1⟩), (1, ⟨none, none, 2⟩)], 2, []⟩ : Mem Nat)
        (moveCtor ⟨some 0, some 0, 1⟩).1 [(0, 1)] ∧
      (moveCtor (⟨some 0, some 0, 1⟩ : Storage)).2 = Storage.empty ∧
      wf (⟨[(0, ⟨none, none, 1⟩), (1, ⟨none, none, 2⟩)], 2, []⟩ : Mem Nat)
        (moveCtor ⟨some 0, some 0, 1⟩).2 []) ∧
    (wf (⟨[(0, ⟨none, none, 1⟩), (1, ⟨none, none, 2⟩)], 2, []⟩ : Mem Nat)
        (moveAssign ⟨some 0, some 0, 1⟩ ⟨some 1, some 1, 1⟩).1 [(1, 2)] ∧
      wf (⟨[(0, ⟨none, none, 1⟩), (1, ⟨none, none, 2⟩)], 2, []⟩ : Mem Nat)
        (moveAssign ⟨some 0, some 0, 1⟩ ⟨some 1, some 1, 1⟩).2 [(0, 1)] ∧
      ((moveAssign (⟨some 0, some 0, 1⟩ : Storage) ⟨some 1, some 1, 1⟩).2.size = 0 ↔
        ([(0, 1)] : List (Nat × Nat)) = [])) :=
  ⟨(move_semantics ⟨[(0, ⟨none, none, 1⟩), (1, ⟨none, none, 2⟩)], 2, []⟩).1
      ⟨some 0, some 0, 1⟩ [(0, 1)] (by decide),
    (move_semantics ⟨[(0, ⟨none, none, 1⟩), (1, ⟨none, none, 2⟩)], 2, []⟩).2
      ⟨some 0, some 0, 1⟩ ⟨some 1, some 1, 1⟩ [(0, 1)] [(1, 2)]
      (by decide) (by decide)⟩

/-- C5: `reverse()` on a well-formed two-element list dereferences a null
pointer: the cursors cross, the loop re-runs, swaps the values back and then
evaluates `_Head->_Next` with `_Head == nullptr` — undefined behavior,
modelled as `none`. -/
theorem reverse_two_element_crash :
    wf (⟨[(0, ⟨some 1, none, 1⟩), (1, ⟨none, some 0, 2⟩)], 2, []⟩ : Mem Nat)
      ⟨some 0, some 1, 2⟩ [(0, 1), (1, 2)] ∧
    reverse (⟨[(0, ⟨some 1, none, 1⟩), (1, ⟨none, some 0, 2⟩)], 2, []⟩ : Mem Nat)
      ⟨some 0, some 1, 2⟩ = none := by
  constructor <;> decide

/-- `growLoop` with `j` successful allocations followed by a failure stops
after appending exactly `j` copies and reports failure. -/
theorem growLoop_fail {msz : Nat} {v : α} :
    ∀ {j n : Nat} {m : Mem α} {st : Storage} {xs : List (Nat × α)} {r : List Bool},
      m.ok → wf m st xs → m.alloc = List.replicate j true ++ false :: r →
      j < n → xs.length + j < msz →
      ∃ m2 st2 news, growLoop msz v n m st = some (false, m2, st2) ∧
        wf m2 st2 (xs ++ news) ∧ news.length = j ∧
        news.map Prod.snd = List.replicate j v ∧ m2.alloc = r := by
  intro j
  induction j with
  | zero =>
    intro n m st xs r hok hw hal hn hsz
    obtain ⟨n, rfl⟩ : ∃ n2, n = n2 + 1 := ⟨n - 1, by omega⟩
    simp only [List.replicate_zero, List.nil_append] at hal
    have hne : st.size ≠ msz := by
      have h1 := hw.2.2.1
      omega
    refine ⟨⟨m.heap, m.fresh, r⟩, st, [], ?_, by simpa using hw, rfl, rfl, rfl⟩
    simp [growLoop, push_back_alloc_fail hne hal]
  | succ j ih =>
    intro n m st xs r hok hw hal hn hsz
    obtain ⟨n, rfl⟩ : ∃ n2, n = n2 + 1 := ⟨n - 1, by omega⟩
    rw [List.replicate_succ, List.cons_append] at hal
    have hne : st.size ≠ msz := by
      have h1 := hw.2.2.1
      omega
    obtain ⟨m1, st1, he1, hw1, hok1, _, hal1, _, _, _⟩ :=
      push_back_success (v := v) hok hw hne (Or.inr ⟨_, hal⟩)
    rw [hal] at hal1
    obtain ⟨m2, st2, news, he2, hw2, hnews, hvals, hal2⟩ :=
      ih (n := n) hok1 hw1 hal1 (by omega) (by simp; omega)
    refine ⟨m2, st2, (m.fresh, v) :: news, ?_, ?_, by simp [hnews], ?_, hal2⟩
    · simp [growLoop, he1, he2]
    · simpa [List.append_assoc] using hw2
    · simp [hvals, List.replicate_succ]

/-- C10: the fill constructors run `(void) resize(...)` and drop the boolean:
when the `k`-th of `count` requested node allocations fails, the constructed
list silently holds exactly the `k - 1` elements created before the failure
(`k - 1` default-constructed values for `safe_list(count)`, `k - 1` copies of
`value` for `safe_list(count, value)`); the constructor's result carries no
other failure indication. -/
theorem fill_ctor_partial [Inhabited α] (msz count k : Nat) (v : α)
    (r : List Bool) (hk1 : 1 ≤ k) (hk2 : k ≤ count) (hc : count ≤ msz) :
    (∃ m2 st2, fillCtorVal msz count v
        (List.replicate (k - 1) true ++ false :: r) = some (m2, st2) ∧
      st2.size = k - 1 ∧
      valsN m2 st2.size st2.head = some (List.replicate (k - 1) v)) ∧
    (∃ m2 st2, fillCtorDef msz count
        (List.replicate (k - 1) true ++ false :: r) = some (m2, st2) ∧
      st2.size = k - 1 ∧
      valsN m2 st2.size st2.head = some (List.replicate (k - 1) (default : α))) := by
  have hmain : ∀ w : α, ∃ m2 st2, fillCtorVal msz count w
        (List.replicate (k - 1) true ++ false :: r) = some (m2, st2) ∧
      st2.size = k - 1 ∧
      valsN m2 st2.size st2.head = some (List.replicate (k - 1) w) := by
    intro w
    have hok : (⟨[], 0, List.replicate (k - 1) true ++ false :: r⟩ : Mem α).ok := by
      intro e he
      simp at he
    have hw : wf (⟨[], 0, List.replicate (k - 1) true ++ false :: r⟩ : Mem α)
        Storage.empty [] := ⟨rfl, rfl, rfl, List.nodup_nil⟩
    obtain ⟨m2, st2, news, he, hw2, hnews, hvals, _⟩ :=
      @growLoop_fail α _ msz w (k - 1) count _ _ _ _ hok hw rfl
        (by omega) (by simp; omega)
    refine ⟨m2, st2, ?_, ?_, ?_⟩
    · have hcond : Storage.empty.size < count := by
        show 0 < count
        omega
      simp only [fillCtorVal, resizeVal, if_pos hcond]
      rw [show count - Storage.empty.size = count from rfl, he]
      rfl
    · rw [hw2.2.2.1]
      simpa using hnews
    · rw [wf_valsN hw2]
      simp [hvals]
  exact ⟨hmain v, hmain default⟩

/-- Witness for C10: requesting 5 elements with the 3rd allocation failing
yields a 2-element list. -/
theorem fill_ctor_partial_witness :
    (∃ m2 st2, fillCtorVal 100 5 (42 : Nat)
        (List.replicate (3 - 1) true ++ false :: []) = some (m2, st2) ∧
      st2.size = 3 - 1 ∧
      valsN m2 st2.size st2.head = some (List.replicate (3 - 1) 42)) ∧
    (∃ m2 st2, fillCtorDef 100 5
        (List.replicate (3 - 1) true ++ false :: []) = some (m2, st2) ∧
      st2.size = 3 - 1 ∧
      valsN m2 st2.size st2.head = some (List.replicate (3 - 1) (default : Nat))) :=
  fill_ctor_partial 100 5 3 42 [] (by decide) (by decide) (by decide)

/-- Below `max_size()`, `push_back` is exactly `_Append_node`. -/
theorem appendNode_eq_push_back {msz : Nat} {m : Mem α} {st : Storage} {v : α}
    (hsz : st.size ≠ msz) : push_back msz m st v = appendNode m st v := by
  simp only [push_back, if_neg hsz]
  rfl

/-- `_Append_node` with a succeeding allocation. -/
theorem appendNode_success {m : Mem α} {st : Storage} {xs : List (Nat × α)} {v : α}
    (hok : m.ok) (hw : wf m st xs)
    (ha : m.alloc = [] ∨ ∃ r, m.alloc = true :: r) :
    ∃ m2 st2, appendNode m st v = some (true, m2, st2) ∧
      wf m2 st2 (xs ++ [(m.fresh, v)]) ∧ m2.ok ∧
      m2.fresh = m.fresh + 1 ∧ m2.alloc = m.alloc.tail ∧
      st2.size = st.size + 1 ∧
      (∀ j, j ≠ m.fresh → j ∉ ids xs → hfind m2.heap j = hfind m.heap j) ∧
      m2.heap.length = m.heap.length + 1 := by
  have heq := @appendNode_eq_push_back α _ (st.size + 1) m st v (by omega)
  obtain ⟨m2, st2, he, rest⟩ :=
    @push_back_success α _ (st.size + 1) m st _ v hok hw (by omega) ha
  exact ⟨m2, st2, by rw [← heq, he], rest⟩

/-- A well-formed segment cannot be longer than the heap. -/
theorem seg_length_le_heap {h : Heap α} {ys : List (Nat × α)}
    {prev p q : Option Nat} (hs : seg h prev p ys q) (hnd : (ids ys).Nodup) :
    ys.length ≤ h.length := by
  have hsub : ids ys ⊆ h.map Prod.fst := by
    intro j hj
    obtain ⟨nd, hf⟩ := seg_find_isSome hs j hj
    exact List.mem_map.mpr ⟨(j, nd), hfind_mem hf, rfl⟩
  have hperm := List.subperm_of_subset hnd hsub
  have := hperm.length_le
  simpa [ids] using this

/-- `_Copy_list`'s loop with a succeeding allocator deep-copies the source
segment onto the destination's tail. -/
theorem copyLoop_success {ys : List (Nat × α)} :
    ∀ {m : Mem α} {dst : Storage} {xs : List (Nat × α)} {prev p : Option Nat}
      {fuel : Nat},
      m.ok → wf m dst xs → seg m.heap prev p ys none →
      (∀ j ∈ ids xs, j ∉ ids ys) → m.alloc = [] → ys.length < fuel →
      ∃ m2 dst2 news, copyLoop fuel m dst p = some (m2, dst2) ∧
        wf m2 dst2 (xs ++ news) ∧ m2.ok ∧ m2.alloc = [] ∧
        news.map Prod.snd = ys.map Prod.snd ∧
        (∀ j ∈ ids news, m.fresh ≤ j) ∧
        (∀ j, j ∉ ids xs → j < m.fresh → hfind m2.heap j = hfind m.heap j) := by
  induction ys with
  | nil =>
    intro m dst xs prev p fuel hok hw hs _ hal _
    have hp : p = none := seg_fp hs
    subst hp
    exact ⟨m, dst, [], by cases fuel <;> rfl, by simpa using hw, hok, hal, rfl,
      by simp [ids], fun _ _ _ => rfl⟩
  | cons e yt ih =>
    obtain ⟨i, v⟩ := e
    intro m dst xs prev p fuel hok hw hs hdisj hal hfuel
    obtain ⟨rfl, hf, hyt⟩ := hs
    obtain ⟨fuel, rfl⟩ : ∃ f2, fuel = f2 + 1 := ⟨fuel - 1, by omega⟩
    have hilt : i < m.fresh := hok _ (hfind_mem hf)
    have hint : i ∉ ids xs := fun hmem => hdisj i hmem (by simp [ids])
    obtain ⟨m1, dst1, he1, hw1, hok1, hfr1, hal1, _, hframe1, _⟩ :=
      appendNode_success (v := v) hok hw (Or.inl hal)
    rw [hal] at hal1
    have hytlt : ∀ j ∈ ids yt, j < m.fresh := by
      intro j hj
      obtain ⟨nd, hfj⟩ := seg_find_isSome hyt j hj
      exact hok _ (hfind_mem hfj)
    have hyt1 : seg m1.heap (some i) (fp yt none) yt none := by
      refine seg_frame ?_ hyt
      intro j hj
      exact hframe1 j (by have := hytlt j hj; omega)
        (fun hmem => hdisj j hmem (by simp [ids]; exact Or.inr (by simpa [ids] using hj)))
    have hdisj1 : ∀ j ∈ ids (xs ++ [(m.fresh, v)]), j ∉ ids yt := by
      intro j hj
      rw [ids_append] at hj
      rcases List.mem_append.mp hj with hj | hj
      · exact fun hmem => hdisj j hj (by simp [ids]; exact Or.inr (by simpa [ids] using hmem))
      · have : j = m.fresh := by simpa [ids] using hj
        subst this
        intro hmem
        exact absurd (hytlt _ hmem) (by omega)
    obtain ⟨m2, dst2, news, he2, hw2, hok2, hal2, hvals, hids, hframe2⟩ :=
      @ih _ _ _ _ _ fuel hok1 hw1 hyt1 hdisj1 hal1
        (by have hl : ((i, v) :: yt).length = yt.length + 1 := rfl; omega)
    have hifind1 : hfind m1.heap i = hfind m.heap i :=
      hframe1 i (by omega) hint
    refine ⟨m2, dst2, (m.fresh, v) :: news, ?_, ?_, hok2, hal2, by simp [hvals], ?_, ?_⟩
    · simp [copyLoop, hf, he1, hifind1, he2]
    · simpa [List.append_assoc] using hw2
    · intro j hj
      rcases (by simpa [ids] using hj : j = m.fresh ∨ j ∈ ids news) with rfl | hj2
      · omega
      · have := hids j hj2
        omega
    · intro j hj1 hj2
      have hnotin : j ∉ ids (xs ++ [(m.fresh, v)]) := by
        rw [ids_append]
        intro hmem
        rcases List.mem_append.mp hmem with hmem | hmem
        · exact hj1 hmem
        · have : j = m.fresh := by simpa [ids] using hmem
          omega
      rw [hframe2 j hnotin (by rw [hfr1]; omega), hframe1 j (by omega) hj1]

/-- C9: copy assignment between distinct lists does not clear the destination
first: `operator=` calls `_Copy_list`, which appends a deep copy of the
source's sequence after the destination's existing elements, so the resulting
sequence is the destination's prior sequence followed by the source's
sequence (the source itself is untouched and shares no node with the copy). -/
theorem copy_assign_appends (m : Mem α) (dst src : Storage)
    (xs ys : List (Nat × α)) (hok : m.ok) (hw1 : wf m dst xs) (hw2 : wf m src ys)
    (hd : ∀ j ∈ ids xs, j ∉ ids ys) (hal : m.alloc = []) :
    ∃ m2 dst2 news, copyAssign m dst src = some (m2, dst2) ∧
      wf m2 dst2 (xs ++ news) ∧
      news.map Prod.snd = ys.map Prod.snd ∧
      valsN m2 dst2.size dst2.head = some (xs.map Prod.snd ++ ys.map Prod.snd) ∧
      wf m2 src ys ∧
      (∀ j ∈ ids news, j ∉ ids ys) := by
  obtain ⟨hs2, htl2, hlen2, hnd2⟩ := hw2
  have hylt : ∀ j ∈ ids ys, j < m.fresh := seg_ids_lt hok hs2
  have hfuel : ys.length < m.heap.length + 1 :=
    Nat.lt_succ_of_le (seg_length_le_heap hs2 hnd2)
  obtain ⟨m2, dst2, news, he, hwr, hok2, hal2, hvals, hids, hframe⟩ :=
    copyLoop_success hok hw1 hs2 hd hal hfuel
  refine ⟨m2, dst2, news, he, hwr, hvals, ?_, ?_, ?_⟩
  · rw [wf_valsN hwr]
    simp [hvals]
  · refine ⟨?_, htl2, hlen2, hnd2⟩
    refine seg_frame ?_ hs2
    intro j hj
    exact hframe j (fun hmem => hd j hmem hj) (hylt j hj)
  · intro j hj hjy
    have h1 := hids j hj
    have h2 := hylt j hjy
    omega

/-- Witness for C9: copying `[8, 9]` onto `[1, 2]` yields `[1, 2, 8, 9]`. -/
theorem copy_assign_appends_witness :
    ∃ m2 dst2 news,
      copyAssign
          (⟨[(0, ⟨some 1, none, 1⟩), (1, ⟨none, some 0, 2⟩),
             (2, ⟨some 3, none, 8⟩), (3, ⟨none, some 2, 9⟩)], 4, []⟩ : Mem Nat)
          ⟨some 0, some 1, 2⟩ ⟨some 2, some 3, 2⟩ = some (m2, dst2) ∧
      wf m2 dst2 ([(0, 1), (1, 2)] ++ news) ∧
      news.map Prod.snd = [(2, 8), (3, 9)].map Prod.snd ∧
      valsN m2 dst2.size dst2.head =
        some ([(0, 1), (1, 2)].map Prod.snd ++ [(2, 8), (3, 9)].map Prod.snd) ∧
      wf m2 ⟨some 2, some 3, 2⟩ [(2, 8), (3, 9)] ∧
      (∀ j ∈ ids news, j ∉ ids [(2, 8), (3, 9)]) :=
  copy_assign_appends
    ⟨[(0, ⟨some 1, none, 1⟩), (1, ⟨none, some 0, 2⟩),
      (2, ⟨some 3, none, 8⟩), (3, ⟨none, some 2, 9⟩)], 4, []⟩
    ⟨some 0, some 1, 2⟩ ⟨some 2, some 3, 2⟩ [(0, 1), (1, 2)] [(2, 8), (3, 9)]
    (by decide) (by decide) (by decide) (by decide) rfl

theorem lastPtr_indep {bs : List (Nat × α)} (hne : bs ≠ []) (p p2 : Option Nat) :
    lastPtr p bs = lastPtr p2 bs := by
  cases bs with
  | nil => exact absurd rfl hne
  | cons e rest => rfl

theorem fp_indep {as : List (Nat × α)} (hne : as ≠ []) (q q2 : Option Nat) :
    fp as q = fp as q2 := by
  cases as with
  | nil => exact absurd rfl hne
  | cons e rest => rfl

/-- Redirecting the last node's `_Next` moves a segment's end pointer. -/
theorem seg_retarget {h h2 : Heap α} {as : List (Nat × α)} {aL : Nat} {av : α}
    {prev p qold qnew : Option Nat}
    (hs : seg h prev p (as ++ [(aL, av)]) qold)
    (hfind2 : ∀ nd, hfind h aL = some nd → hfind h2 aL = some { nd with next := qnew })
    (hagree : ∀ j ∈ ids as, hfind h2 j = hfind h j) :
    seg h2 prev p (as ++ [(aL, av)]) qnew := by
  obtain ⟨hs1, hs2⟩ := seg_append.mp hs
  rw [show fp [(aL, av)] qold = some aL from rfl] at hs1 hs2
  obtain ⟨-, hfa⟩ := seg_singleton.mp hs2
  refine seg_append.mpr ⟨?_, ?_⟩
  · rw [show fp [(aL, av)] qnew = some aL from rfl]
    exact seg_frame hagree hs1
  · rw [show fp [(aL, av)] qnew = some aL from rfl]
    exact seg_singleton.mpr ⟨rfl, hfind2 _ hfa⟩

/-- Redirecting the first node's `_Prev` moves a segment's predecessor. -/
theorem seg_reprev {h h2 : Heap α} {bs : List (Nat × α)} {b1 : Nat} {bv : α}
    {prevold prevnew p q : Option Nat}
    (hs : seg h prevold p ((b1, bv) :: bs) q)
    (hfind2 : ∀ nd, hfind h b1 = some nd → hfind h2 b1 = some { nd with prev := prevnew })
    (hagree : ∀ j ∈ ids bs, hfind h2 j = hfind h j) :
    seg h2 prevnew p ((b1, bv) :: bs) q := by
  obtain ⟨rfl, hfb, hrest⟩ := hs
  exact ⟨rfl, hfind2 _ hfb, seg_frame hagree hrest⟩

/-- `erase(position)` at `cbegin()` on a non-empty list: removes the first
node and returns an iterator to the new head, or the null iterator when the
erased node was the only one — in which case `_Head`/`_Tail` keep their
(now dangling) non-null values while the size drops to 0. -/
theorem erase_head {m : Mem α} {st : Storage} {i : Nat} {v : α}
    {bs : List (Nat × α)} (hok : m.ok) (hw : wf m st ((i, v) :: bs)) :
    ∃ r m2 st2, erase1 m st (some i) = some (r, m2, st2) ∧
      st2.size = bs.length ∧ m2.ok ∧
      (bs = [] → r = none ∧ st2.head = some i ∧ st2.tail = some i) ∧
      (bs ≠ [] → r = st2.head ∧ wf m2 st2 bs) := by
  obtain ⟨hs, htl, hlen, hnd⟩ := hw
  obtain ⟨hhd, hfi, hrest⟩ := hs
  have hinb : i ∉ ids bs := (List.nodup_cons.mp hnd).1
  have hndb : (ids bs).Nodup := (List.nodup_cons.mp hnd).2
  cases bs with
  | nil =>
    have heq : erase1 m st (some i) =
        some (none, destroy m (some i), ⟨some i, st.tail, 0⟩) := by
      simp [erase1, hlen, hhd, deref, hfi, fp]
    refine ⟨none, _, _, heq, rfl, ok_destroy hok _, fun _ => ⟨rfl, rfl, ?_⟩,
      fun hne => absurd rfl hne⟩
    exact htl.trans rfl
  | cons e bt =>
    obtain ⟨b1, bv⟩ := e
    have hfb1 : hfind m.heap b1 = some ⟨fp bt none, some i, bv⟩ := hrest.2.1
    have hb1lt : b1 < m.fresh := hok _ (hfind_mem hfb1)
    have hib1 : i ≠ b1 := by
      intro hh
      exact hinb (by simp [ids, hh])
    have hb1bt : b1 ∉ ids bt := (List.nodup_cons.mp hndb).1
    obtain ⟨m1, he1, hset1, hne1, hfr1, hal1, hmem1, hlen1⟩ :=
      setPrev_spec (m := m) (i := b1) none hfb1
    have heq : erase1 m st (some i) =
        some (some b1, destroy m1 (some i), ⟨some b1, st.tail, bt.length + 1⟩) := by
      simp [erase1, hlen, hhd, deref, hfi, fp, he1]
    refine ⟨some b1, _, _, heq, rfl, ok_destroy (ok_update hok hmem1 hfr1 hb1lt) _,
      fun hne => absurd hne (by simp), fun _ => ⟨rfl, ?_, ?_, rfl, hndb⟩⟩
    · refine seg_reprev hrest ?_ ?_
      · intro nd hnd2
        rw [hfb1] at hnd2
        injection hnd2 with hnd2
        subst hnd2
        rw [hfind_destroy_ne hib1.symm, hset1]
      · intro j hj
        have hji : j ≠ i := by
          intro hh
          subst hh
          exact hinb (List.mem_cons_of_mem _ hj)
        have hjb : j ≠ b1 := fun hh => hb1bt (hh ▸ hj)
        rw [hfind_destroy_ne hji, hne1 j hjb]
    · rw [show (⟨some b1, st.tail, bt.length + 1⟩ : Storage).tail = st.tail from rfl,
        htl]
      rfl

/-- `erase(position)` at the past-the-end (null) position on a non-empty
list erases the last node (the source's `_Where == cend()` branch), returning
an iterator to the new tail, or the null iterator when the list had one
element — in which case `_Head`/`_Tail` keep their dangling values. -/
theorem erase_end {m : Mem α} {st : Storage} {as : List (Nat × α)} {t : Nat}
    {tv : α} (hok : m.ok) (hw : wf m st (as ++ [(t, tv)])) :
    ∃ r m2 st2, erase1 m st none = some (r, m2, st2) ∧
      st2.size = as.length ∧ m2.ok ∧
      (as = [] → r = none ∧ st2.head = some t ∧ st2.tail = some t) ∧
      (as ≠ [] → r = st2.tail ∧ wf m2 st2 as) := by
  obtain ⟨hs, htl, hlen, hnd⟩ := hw
  have htl2 : st.tail = some t := by rw [htl, lastPtr_snoc]
  have hlen2 : st.size = as.length + 1 := by simpa using hlen
  obtain ⟨hseg1, hseg2⟩ := seg_append.mp hs
  rw [show fp [(t, tv)] none = some t from rfl] at hseg1 hseg2
  have hft : hfind m.heap t = some ⟨none, lastPtr none as, tv⟩ :=
    (seg_singleton.mp hseg2).2
  rcases List.eq_nil_or_concat as with rfl | ⟨as2, ⟨aL, av⟩, hxs⟩
  · -- the only element
    have hhd : st.head = some t := seg_fp hs
    have heq : erase1 m st none =
        some (none, destroy m (some t), ⟨st.head, some t, 0⟩) := by
      simp [erase1, hlen2, hhd, htl2, deref, hft, lastPtr]
    refine ⟨none, _, _, heq, rfl, ok_destroy hok _, fun _ => ⟨rfl, hhd, rfl⟩,
      fun hne => absurd rfl hne⟩
  · rw [List.concat_eq_append] at hxs
    subst hxs
    have hprev : lastPtr (none : Option Nat) (as2 ++ [(aL, av)]) = some aL :=
      lastPtr_snoc
    have haLt : aL ≠ t := by
      have h2 := nodup_snoc hnd
      intro hh
      exact h2.2 (by rw [hh, ids_append]; simp [ids])
    have hfaL : ∃ ndL, hfind m.heap aL = some ndL := by
      refine seg_find_isSome hseg1 aL ?_
      rw [ids_append]
      simp [ids]
    obtain ⟨ndL, hfaLe⟩ := hfaL
    have haLlt : aL < m.fresh := hok _ (hfind_mem hfaLe)
    obtain ⟨m1, he1, hset1, hne1, hfr1, hal1, hmem1, hlen1⟩ :=
      setNext_spec (m := m) (i := aL) none hfaLe
    have hhd : ∃ k, st.head = some k := by
      have := seg_fp hs
      cases as2 with
      | nil => exact ⟨aL, by simpa [fp] using this⟩
      | cons e r2 => exact ⟨e.1, by simpa [fp] using this⟩
    obtain ⟨k, hhdk⟩ := hhd
    have heq : erase1 m st none =
        some (some aL, destroy m1 (some t),
          ⟨st.head, some aL, (as2 ++ [(aL, av)]).length⟩) := by
      simp [erase1, hlen2, hhdk, htl2, deref, hft, hprev, he1]
    refine ⟨some aL, _, _, heq, rfl, ok_destroy (ok_update hok hmem1 hfr1 haLlt) _,
      fun hne => absurd hne (by simp),
      fun _ => ⟨rfl, ?_, hprev.symm, rfl, (nodup_snoc hnd).1⟩⟩
    refine seg_retarget hseg1 ?_ ?_
    · intro nd hnd2
      rw [hfaLe] at hnd2
      injection hnd2 with hnd2
      subst hnd2
      rw [hfind_destroy_ne haLt, hset1]
    · intro j hj
      have hjt : j ≠ t := by
        intro hh
        subst hh
        exact (nodup_snoc hnd).2 (by rw [ids_append]; exact List.mem_append_left _ hj)
      have hjaL : j ≠ aL := by
        intro hh
        subst hh
        exact (nodup_snoc (nodup_snoc hnd).1).2 hj
      rw [hfind_destroy_ne hjt, hne1 j hjaL]

theorem nodup_middle_ids {as bs : List (Nat × α)} {j : Nat} {v : α}
    (h : (ids (as ++ (j, v) :: bs)).Nodup) :
    (ids (as ++ bs)).Nodup ∧ j ∉ ids as ∧ j ∉ ids bs := by
  have h2 : (ids as ++ j :: ids bs).Nodup := by
    rw [ids_append] at h
    exact h
  rw [List.nodup_middle] at h2
  obtain ⟨hj, hnd⟩ := List.nodup_cons.mp h2
  refine ⟨by rw [ids_append]; exact hnd, ?_, ?_⟩
  · exact fun hh => hj (List.mem_append_left _ hh)
  · exact fun hh => hj (List.mem_append_right _ hh)

/-- `erase(position)` at an interior node (neither the head node nor the
null/tail position): unlinks it and returns an iterator to the next node. -/
theorem erase_inner {m : Mem α} {st : Storage} {as bs : List (Nat × α)}
    {j : Nat} {v : α} (hok : m.ok) (hw : wf m st (as ++ (j, v) :: bs))
    (has : as ≠ []) (hbs : bs ≠ []) :
    ∃ m2 st2, erase1 m st (some j) = some (fp bs none, m2, st2) ∧
      st2.size = (as ++ bs).length ∧ m2.ok ∧ wf m2 st2 (as ++ bs) := by
  obtain ⟨hs, htl, hlen, hnd⟩ := hw
  obtain ⟨hndm, hjas, hjbs⟩ := nodup_middle_ids hnd
  obtain ⟨b1, bv, bt, rfl⟩ : ∃ b1 bv bt, bs = (b1, bv) :: bt := by
    cases bs with
    | nil => exact absurd rfl hbs
    | cons e bt => exact ⟨e.1, e.2, bt, rfl⟩
  rcases List.eq_nil_or_concat as with rfl | ⟨as2, ⟨aL, av⟩, hxs⟩
  · exact absurd rfl has
  rw [List.concat_eq_append] at hxs
  subst hxs
  obtain ⟨hseg1, hseg2⟩ := seg_append.mp hs
  rw [show fp ((j, v) :: (b1, bv) :: bt) none = some j from rfl] at hseg1 hseg2
  rw [lastPtr_snoc] at hseg2
  obtain ⟨-, hfj, hrest⟩ := hseg2
  rw [show fp ((b1, bv) :: bt) none = some b1 from rfl] at hfj hrest
  have hfb1 : hfind m.heap b1 = some ⟨fp bt none, some j, bv⟩ := hrest.2.1
  obtain ⟨ndL, hfaLe⟩ : ∃ ndL, hfind m.heap aL = some ndL :=
    seg_find_isSome hseg1 aL (by rw [ids_append]; simp [ids])
  have haLlt : aL < m.fresh := hok _ (hfind_mem hfaLe)
  have hb1lt : b1 < m.fresh := hok _ (hfind_mem hfb1)
  have hndm2 : (ids (as2 ++ [(aL, av)]) ++ ids ((b1, bv) :: bt)).Nodup := by
    rw [ids_append] at hndm
    exact hndm
  have hnda : (ids (as2 ++ [(aL, av)])).Nodup := (List.nodup_append.mp hndm2).1
  have hndb : (ids ((b1, bv) :: bt)).Nodup := (List.nodup_append.mp hndm2).2.1
  have hdisj : (ids (as2 ++ [(aL, av)])).Disjoint (ids ((b1, bv) :: bt)) :=
    (List.nodup_append.mp hndm2).2.2
  have haLmemL : aL ∈ ids (as2 ++ [(aL, av)]) := by
    rw [ids_append]
    exact List.mem_append_right _ (by simp [ids])
  -- distinctness
  have hjaL : j ≠ aL := fun hh => hjas (hh ▸ haLmemL)
  have hjb1 : j ≠ b1 := by
    intro hh
    subst hh
    exact hjbs (List.mem_cons_self _ _)
  have haLb1 : aL ≠ b1 := by
    intro hh
    exact hdisj haLmemL (by rw [hh]; exact List.mem_cons_self _ _)
  have hb1bt : b1 ∉ ids bt := (List.nodup_cons.mp hndb).1
  -- the two link writes
  obtain ⟨m1, he1, hset1, hne1, hfr1, hal1, hmem1, hlen1⟩ :=
    setNext_spec (m := m) (i := aL) (some b1) hfaLe
  have hfb1m1 : hfind m1.heap b1 = some ⟨fp bt none, some j, bv⟩ := by
    rw [hne1 b1 (Ne.symm haLb1)]
    exact hfb1
  obtain ⟨m2, he2, hset2, hne2, hfr2, hal2, hmem2, hlen2⟩ :=
    setPrev_spec (m := m1) (i := b1) (some aL) hfb1m1
  -- head is a node of the left part, hence not j
  have hhd : ∃ k, st.head = some k ∧ k ∈ ids (as2 ++ [(aL, av)]) := by
    have hfp := seg_fp hseg1
    cases as2 with
    | nil => exact ⟨aL, by simpa [fp] using hfp, by simp [ids]⟩
    | cons e r2 => exact ⟨e.1, by simpa [fp] using hfp, by simp [ids]⟩
  obtain ⟨k, hhdk, hkmem⟩ := hhd
  have hkj : ¬(some j = st.head) := by
    rw [hhdk]
    intro hh
    injection hh with hh
    exact hjas (hh ▸ hkmem)
  have hsz0 : ¬(st.size = 0) := by
    rw [hlen]
    simp
  have heq : erase1 m st (some j) =
      some (some b1, destroy m2 (some j), ⟨st.head, st.tail, st.size - 1⟩) := by
    simp [erase1, hsz0, hkj, deref, hfj, he1, he2]
  have hsz2 : st.size - 1 = ((as2 ++ [(aL, av)]) ++ (b1, bv) :: bt).length := by
    rw [hlen]
    simp only [List.length_append, List.length_cons, List.length_nil]
    omega
  refine ⟨destroy m2 (some j), ⟨st.head, st.tail, st.size - 1⟩, heq, hsz2,
    ok_destroy (ok_update (ok_update hok hmem1 hfr1 haLlt) hmem2 hfr2
      (by rw [hfr1]; omega)) _, ?_, ?_, hsz2, hndm⟩
  · -- the relinked chain
    refine seg_append.mpr ⟨?_, ?_⟩
    · rw [show fp ((b1, bv) :: bt) none = some b1 from rfl]
      refine seg_retarget hseg1 ?_ ?_
      · intro nd hnd2
        rw [hfaLe] at hnd2
        injection hnd2 with hnd2
        subst hnd2
        rw [hfind_destroy_ne hjaL.symm, hne2 aL haLb1, hset1]
      · intro j2 hj2
        have hj2aL : j2 ≠ aL := by
          intro hh
          subst hh
          exact (nodup_snoc hnda).2 hj2
        have hj2j : j2 ≠ j := by
          intro hh
          subst hh
          exact hjas (by rw [ids_append]; exact List.mem_append_left _ hj2)
        have hj2b1 : j2 ≠ b1 := by
          intro hh
          subst hh
          exact hdisj (by rw [ids_append]; exact List.mem_append_left _ hj2)
            (List.mem_cons_self _ _)
        rw [hfind_destroy_ne hj2j, hne2 j2 hj2b1, hne1 j2 hj2aL]
    · rw [show fp ((b1, bv) :: bt) none = some b1 from rfl, lastPtr_snoc]
      refine seg_reprev hrest ?_ ?_
      · intro nd hnd2
        rw [hfb1] at hnd2
        injection hnd2 with hnd2
        subst hnd2
        rw [hfind_destroy_ne hjb1.symm, hset2]
      · intro j2 hj2
        have hj2b1 : j2 ≠ b1 := fun hh => hb1bt (hh ▸ hj2)
        have hj2j : j2 ≠ j := by
          intro hh
          subst hh
          exact hjbs (List.mem_cons_of_mem _ hj2)
        have hj2aL : j2 ≠ aL := by
          intro hh
          subst hh
          exact hdisj haLmemL (List.mem_cons_of_mem _ hj2)
        rw [hfind_destroy_ne hj2j, hne2 j2 hj2b1, hne1 j2 hj2aL]
  · -- the tail pointer is unchanged
    have hLHS : lastPtr (none : Option Nat)
        ((as2 ++ [(aL, av)]) ++ (j, v) :: (b1, bv) :: bt) = lastPtr (some b1) bt := by
      rw [lastPtr_append]
      rfl
    have hRHS : lastPtr (none : Option Nat)
        ((as2 ++ [(aL, av)]) ++ (b1, bv) :: bt) = lastPtr (some b1) bt := by
      rw [lastPtr_append]
      rfl
    rw [show (⟨st.head, st.tail, st.size - 1⟩ : Storage).tail = st.tail from rfl,
      htl, hLHS, hRHS]

/-- `erase(position)` on an empty list: a no-op returning the null iterator. -/
theorem erase_empty {m : Mem α} {st : Storage} (w : Option Nat)
    (hsz : st.size = 0) : erase1 m st w = some (none, m, st) := by
  simp [erase1, hsz]

/-- `erase(position)` given a non-null iterator to the tail node of a list of
size ≥ 2: the source reaches the inner branch and evaluates
`_Node->_Next->_Prev` with `_Node->_Next == nullptr` — undefined behavior. -/
theorem erase_tail_iterator_crash {m : Mem α} {st : Storage}
    {as : List (Nat × α)} {t : Nat} {tv : α} (hok : m.ok)
    (hw : wf m st (as ++ [(t, tv)])) (has : as ≠ []) :
    erase1 m st (some t) = none := by
  obtain ⟨hs, htl, hlen, hnd⟩ := hw
  obtain ⟨hseg1, hseg2⟩ := seg_append.mp hs
  rw [show fp [(t, tv)] none = some t from rfl] at hseg1 hseg2
  have hft : hfind m.heap t = some ⟨none, lastPtr none as, tv⟩ :=
    (seg_singleton.mp hseg2).2
  rcases List.eq_nil_or_concat as with rfl | ⟨as2, ⟨aL, av⟩, hxs⟩
  · exact absurd rfl has
  rw [List.concat_eq_append] at hxs
  subst hxs
  obtain ⟨ndL, hfaLe⟩ : ∃ ndL, hfind m.heap aL = some ndL :=
    seg_find_isSome hseg1 aL (by rw [ids_append]; simp [ids])
  obtain ⟨m1, he1, _, _, _, _, _, _⟩ :=
    setNext_spec (m := m) (i := aL) none hfaLe
  have hhd : ∃ k, st.head = some k ∧ k ∈ ids (as2 ++ [(aL, av)]) := by
    have hfp := seg_fp hseg1
    cases as2 with
    | nil => exact ⟨aL, by simpa [fp] using hfp, by simp [ids]⟩
    | cons e r2 => exact ⟨e.1, by simpa [fp] using hfp, by simp [ids]⟩
  obtain ⟨k, hhdk, hkmem⟩ := hhd
  have hkt : ¬(some t = st.head) := by
    rw [hhdk]
    intro hh
    injection hh with hh
    exact (nodup_snoc hnd).2 (hh ▸ hkmem)
  have hsz0 : ¬(st.size = 0) := by
    rw [hlen]
    simp
  have hprev : lastPtr (none : Option Nat) (as2 ++ [(aL, av)]) = some aL :=
    lastPtr_snoc
  simp [erase1, hsz0, hkt, deref, hft, hprev, he1, setPrev]

/-- Counterexample for C2: on the well-formed two-element list `[1, 2]`,
`erase` at the past-the-end (null) position is not a no-op: it erases the
tail node (size drops from 2 to 1) and returns a non-null iterator. -/
theorem erase_end_not_noop :
    wf (⟨[(0, ⟨some 1, none, 1⟩), (1, ⟨none, some 0, 2⟩)], 2, []⟩ : Mem Nat)
      ⟨some 0, some 1, 2⟩ [(0, 1), (1, 2)] ∧
    (erase1 (⟨[(0, ⟨some 1, none, 1⟩), (1, ⟨none, some 0, 2⟩)], 2, []⟩ : Mem Nat)
        ⟨some 0, some 1, 2⟩ none).map (fun r => (r.1, r.2.2.size)) =
      some (some 0, 1) := by
  constructor <;> decide

/-- C2 (amended): `erase(position)` on an empty list is a no-op returning the
null iterator.  On a non-empty list, the null (past-the-end) position erases
the LAST node, returning an iterator to the new tail (null if the list had
one element); the head node's position erases the first node, returning an
iterator to the new head (null if the list had one element); an interior
position unlinks that node and returns an iterator to the following node; a
non-null position naming the tail node of a list of size ≥ 2 dereferences a
null pointer (undefined behavior). -/
theorem erase_contract (m : Mem α) :
    (∀ (st : Storage) (w : Option Nat), st.size = 0 →
      erase1 m st w = some (none, m, st)) ∧
    (∀ (st : Storage) (as : List (Nat × α)) (t : Nat) (tv : α),
      m.ok → wf m st (as ++ [(t, tv)]) →
      ∃ r m2 st2, erase1 m st none = some (r, m2, st2) ∧
        st2.size = as.length ∧ (as = [] → r = none) ∧
        (as ≠ [] → r = st2.tail ∧ wf m2 st2 as)) ∧
    (∀ (st : Storage) (i : Nat) (v : α) (bs : List (Nat × α)),
      m.ok → wf m st ((i, v) :: bs) →
      ∃ r m2 st2, erase1 m st (some i) = some (r, m2, st2) ∧
        st2.size = bs.length ∧ (bs = [] → r = none) ∧
        (bs ≠ [] → r = st2.head ∧ wf m2 st2 bs)) ∧
    (∀ (st : Storage) (as bs : List (Nat × α)) (j : Nat) (v : α),
      m.ok → wf m st (as ++ (j, v) :: bs) → as ≠ [] → bs ≠ [] →
      ∃ m2 st2, erase1 m st (some j) = some (fp bs none, m2, st2) ∧
        st2.size = (as ++ bs).length ∧ wf m2 st2 (as ++ bs)) ∧
    (∀ (st : Storage) (as : List (Nat × α)) (t : Nat) (tv : α),
      m.ok → wf m st (as ++ [(t, tv)]) → as ≠ [] →
      erase1 m st (some t) = none) := by
  refine ⟨fun st w h => erase_empty w h, ?_, ?_, ?_, ?_⟩
  · intro st as t tv hok hw
    obtain ⟨r, m2, st2, he, hsz, _, hnil, hcons⟩ := erase_end hok hw
    exact ⟨r, m2, st2, he, hsz, fun h => (hnil h).1, hcons⟩
  · intro st i v bs hok hw
    obtain ⟨r, m2, st2, he, hsz, _, hnil, hcons⟩ := erase_head hok hw
    exact ⟨r, m2, st2, he, hsz, fun h => (hnil h).1, hcons⟩
  · intro st as bs j v hok hw has hbs
    obtain ⟨m2, st2, he, hsz, _, hwf⟩ := erase_inner hok hw has hbs
    exact ⟨m2, st2, he, hsz, hwf⟩
  · intro st as t tv hok hw has
    exact erase_tail_iterator_crash hok hw has

/-- Witness for C2 on concrete lists: the empty no-op, erasing at the end of
`[1, 2]`, erasing the head of `[5]`, erasing the middle of `[1, 2, 3]` and
the tail-iterator crash on `[1, 2]`. -/
theorem erase_contract_witness :
    (erase1 (⟨[], 0, []⟩ : Mem Nat) Storage.empty none =
      some (none, ⟨[], 0, []⟩, Storage.empty)) ∧
    (∃ r m2 st2,
      erase1 (⟨[(0, ⟨some 1, none, 1⟩), (1, ⟨none, some 0, 2⟩)], 2, []⟩ : Mem Nat)
          ⟨some 0, some 1, 2⟩ none = some (r, m2, st2) ∧
      st2.size = [(0, 1)].length ∧ (([(0, 1)] : List (Nat × Nat)) = [] → r = none) ∧
      (([(0, 1)] : List (Nat × Nat)) ≠ [] → r = st2.tail ∧ wf m2 st2 [(0, 1)])) ∧
    (∃ r m2 st2,
      erase1 (⟨[(0, ⟨none, none, 5⟩)], 1, []⟩ : Mem Nat) ⟨some 0, some 0, 1⟩
          (some 0) = some (r, m2, st2) ∧
      st2.size = ([] : List (Nat × Nat)).length ∧
      (([] : List (Nat × Nat)) = [] → r = none) ∧
      (([] : List (Nat × Nat)) ≠ [] → r = st2.head ∧ wf m2 st2 [])) ∧
    (∃ m2 st2,
      erase1 (⟨[(0, ⟨some 1, none, 1⟩), (1, ⟨some 2, some 0, 2⟩),
          (2, ⟨none, some 1, 3⟩)], 3, []⟩ : Mem Nat) ⟨some 0, some 2, 3⟩
          (some 1) = some (fp [(2, 3)] none, m2, st2) ∧
      st2.size = ([(0, 1)] ++ [(2, 3)]).length ∧
      wf m2 st2 ([(0, 1)] ++ [(2, 3)])) ∧
    (erase1 (⟨[(0, ⟨some 1, none, 1⟩), (1, ⟨none, some 0, 2⟩)], 2, []⟩ : Mem Nat)
      ⟨some 0, some 1, 2⟩ (some 1) = none) :=
  ⟨(erase_contract ⟨[], 0, []⟩).1 Storage.empty none rfl,
    (erase_contract _).2.1 _ [(0, 1)] 1 2 (by decide) (by decide),
    (erase_contract _).2.2.1 _ 0 5 [] (by decide) (by decide),
    (erase_contract _).2.2.2.1 _ [(0, 1)] [(2, 3)] 1 2 (by decide) (by decide)
      (by decide) (by decide),
    (erase_contract _).2.2.2.2 _ [(0, 1)] 1 2 (by decide) (by decide) (by decide)⟩

theorem lastPtr_mem {bs : List (Nat × α)} :
    ∀ {p k : Nat}, lastPtr (some p) bs = some k → k = p ∨ k ∈ ids bs := by
  induction bs with
  | nil =>
    intro p k h
    injection h with h
    exact Or.inl h.symm
  | cons e bt ih =>
    obtain ⟨j, w⟩ := e
    intro p k h
    rcases ih h with rfl | hmem
    · exact Or.inr (List.mem_cons_self _ _)
    · exact Or.inr (List.mem_cons_of_mem _ hmem)

/-- `_Delete_node` on a node of a well-formed chain: relinks around the node
and frees it.  When the node is the only one, `_Head`/`_Tail` are left
dangling (only the size is reset); otherwise the remaining chain is again
well formed. -/
theorem deleteNode_spec {m : Mem α} {st : Storage} {as bs : List (Nat × α)}
    {i : Nat} {v : α} (hok : m.ok) (hw : wf m st (as ++ (i, v) :: bs)) :
    ∃ m2 st2, deleteNode m st i = some (m2, st2) ∧ m2.ok ∧
      st2.size = (as ++ bs).length ∧
      ((as = [] ∧ bs = []) → st2 = { st with size := 0 }) ∧
      (¬(as = [] ∧ bs = []) → wf m2 st2 (as ++ bs)) := by
  obtain ⟨hs, htl, hlen, hnd⟩ := hw
  obtain ⟨hndm, hias, hibs⟩ := nodup_middle_ids hnd
  obtain ⟨hseg1, hseg2⟩ := seg_append.mp hs
  rw [show fp ((i, v) :: bs) none = some i from rfl] at hseg1 hseg2
  obtain ⟨-, hfi, hrest⟩ := hseg2
  rcases List.eq_nil_or_concat as with rfl | ⟨as2, ⟨aL, av⟩, hxs⟩
  · -- deleting the head node
    have hhd : st.head = some i := by simpa using seg_fp hs
    cases bs with
    | nil =>
      -- the only node: _Head/_Tail stay, only the size drops
      have heq : deleteNode m st i =
          some (destroy m (some i), { st with size := st.size - 1 }) := by
        simp [deleteNode, hfi, hhd, fp]
      refine ⟨_, _, heq, ok_destroy hok _, ?_, fun _ => ?_, fun h => absurd ⟨rfl, rfl⟩ h⟩
      · simp [hlen]
      · have : st.size - 1 = 0 := by simp [hlen]
        simp [this]
    | cons e bt =>
      obtain ⟨b1, bv⟩ := e
      rw [show fp ((b1, bv) :: bt) none = some b1 from rfl] at hfi hrest
      have hfb1 : hfind m.heap b1 = some ⟨fp bt none, some i, bv⟩ := hrest.2.1
      have hb1lt : b1 < m.fresh := hok _ (hfind_mem hfb1)
      have hib1 : i ≠ b1 := by
        intro hh
        exact hibs (by rw [hh]; exact List.mem_cons_self _ _)
      have hb1bt : b1 ∉ ids bt :=
        (List.nodup_cons.mp (show (b1 :: ids bt).Nodup from hndm)).1
      obtain ⟨m1, he1, hset1, hne1, hfr1, hal1, hmem1, hlen1⟩ :=
        setPrev_spec (m := m) (i := b1) none hfb1
      have heq : deleteNode m st i =
          some (destroy m1 (some i),
            { st with head := some b1, size := st.size - 1 }) := by
        simp [deleteNode, hfi, hhd, fp, he1]
      refine ⟨_, _, heq, ok_destroy (ok_update hok hmem1 hfr1 hb1lt) _, ?_,
        fun h => absurd h.2 (by simp), fun _ => ⟨?_, ?_, ?_, by simpa using hndm⟩⟩
      · simp [hlen]
      · refine seg_reprev hrest ?_ ?_
        · intro nd hnd2
          rw [hfb1] at hnd2
          injection hnd2 with hnd2
          subst hnd2
          rw [hfind_destroy_ne hib1.symm, hset1]
        · intro j hj
          have hji : j ≠ i := by
            intro hh
            subst hh
            exact hibs (List.mem_cons_of_mem _ hj)
          have hjb : j ≠ b1 := fun hh => hb1bt (hh ▸ hj)
          rw [hfind_destroy_ne hji, hne1 j hjb]
      · rw [show ({ st with head := some b1, size := st.size - 1 } : Storage).tail =
          st.tail from rfl, htl]
        rfl
      · simp [hlen]
  rw [List.concat_eq_append] at hxs
  subst hxs
  -- the node has a predecessor
  have hndm2 : (ids (as2 ++ [(aL, av)]) ++ ids bs).Nodup := by
    rw [ids_append] at hndm
    exact hndm
  have hnda : (ids (as2 ++ [(aL, av)])).Nodup := (List.nodup_append.mp hndm2).1
  have hndb : (ids bs).Nodup := (List.nodup_append.mp hndm2).2.1
  have hdisj : (ids (as2 ++ [(aL, av)])).Disjoint (ids bs) :=
    (List.nodup_append.mp hndm2).2.2
  have haLmemL : aL ∈ ids (as2 ++ [(aL, av)]) := by
    rw [ids_append]
    exact List.mem_append_right _ (by simp [ids])
  have hiaL : i ≠ aL := fun hh => hias (hh ▸ haLmemL)
  have hihd : ¬(some i = st.head) := by
    have hfp := seg_fp hseg1
    have hhd : ∃ k, st.head = some k ∧ k ∈ ids (as2 ++ [(aL, av)]) := by
      cases as2 with
      | nil => exact ⟨aL, by simpa [fp] using hfp, by simp [ids]⟩
      | cons e r2 => exact ⟨e.1, by simpa [fp] using hfp, by simp [ids]⟩
    obtain ⟨k, hhdk, hkmem⟩ := hhd
    rw [hhdk]
    intro hh
    injection hh with hh
    exact hias (hh ▸ hkmem)
  rw [lastPtr_snoc] at hfi
  obtain ⟨ndL, hfaLe⟩ : ∃ ndL, hfind m.heap aL = some ndL :=
    seg_find_isSome hseg1 aL haLmemL
  have haLlt : aL < m.fresh := hok _ (hfind_mem hfaLe)
  cases bs with
  | nil =>
    -- deleting the tail node
    have htl2 : st.tail = some i := by
      rw [htl, lastPtr_append]
      rfl
    obtain ⟨m1, he1, hset1, hne1, hfr1, hal1, hmem1, hlen1⟩ :=
      setNext_spec (m := m) (i := aL) none hfaLe
    have heq : deleteNode m st i =
        some (destroy m1 (some i),
          { st with tail := some aL, size := st.size - 1 }) := by
      simp [deleteNode, hfi, hihd, htl2, fp, he1]
    refine ⟨_, _, heq, ok_destroy (ok_update hok hmem1 hfr1 haLlt) _, ?_,
      fun h => absurd h.1 (by simp), fun _ => ⟨?_, by simp [lastPtr_snoc], ?_,
        by simpa using hnda⟩⟩
    · simp [hlen]
    · rw [show ({ st with tail := some aL, size := st.size - 1 } : Storage).head =
        st.head from rfl]
      rw [show (as2 ++ [(aL, av)]) ++ ([] : List (Nat × α)) = as2 ++ [(aL, av)]
        from by simp]
      refine seg_retarget hseg1 ?_ ?_
      · intro nd hnd2
        rw [hfaLe] at hnd2
        injection hnd2 with hnd2
        subst hnd2
        rw [hfind_destroy_ne hiaL.symm, hset1]
      · intro j hj
        have hjaL : j ≠ aL := by
          intro hh
          subst hh
          exact (nodup_snoc hnda).2 hj
        have hji : j ≠ i := by
          intro hh
          subst hh
          exact hias (by rw [ids_append]; exact List.mem_append_left _ hj)
        rw [hfind_destroy_ne hji, hne1 j hjaL]
    · simp [hlen]
  | cons e bt =>
    obtain ⟨b1, bv⟩ := e
    rw [show fp ((b1, bv) :: bt) none = some b1 from rfl] at hfi hrest
    have hfb1 : hfind m.heap b1 = some ⟨fp bt none, some i, bv⟩ := hrest.2.1
    have hb1lt : b1 < m.fresh := hok _ (hfind_mem hfb1)
    have hib1 : i ≠ b1 := by
      intro hh
      exact hibs (by rw [hh]; exact List.mem_cons_self _ _)
    have haLb1 : aL ≠ b1 := by
      intro hh
      exact hdisj haLmemL (by rw [hh]; exact List.mem_cons_self _ _)
    have hb1bt : b1 ∉ ids bt := (List.nodup_cons.mp hndb).1
    have hLH : lastPtr (none : Option Nat)
        ((as2 ++ [(aL, av)]) ++ (i, v) :: (b1, bv) :: bt) =
          lastPtr (some b1) bt := by
      rw [lastPtr_append]
      rfl
    have htl2 : ¬(some i = st.tail) := by
      rw [htl, hLH]
      intro hh
      rcases lastPtr_mem hh.symm with rfl | hmem
      · exact hib1 rfl
      · exact hibs (List.mem_cons_of_mem _ hmem)
    obtain ⟨m1, he1, hset1, hne1, hfr1, hal1, hmem1, hlen1⟩ :=
      setNext_spec (m := m) (i := aL) (some b1) hfaLe
    have hfb1m1 : hfind m1.heap b1 = some ⟨fp bt none, some i, bv⟩ := by
      rw [hne1 b1 (Ne.symm haLb1)]
      exact hfb1
    obtain ⟨m2, he2, hset2, hne2, hfr2, hal2, hmem2, hlen2⟩ :=
      setPrev_spec (m := m1) (i := b1) (some aL) hfb1m1
    have heq : deleteNode m st i =
        some (destroy m2 (some i), { st with size := st.size - 1 }) := by
      simp [deleteNode, hfi, hihd, htl2, fp, he1, he2]
    refine ⟨_, _, heq,
      ok_destroy (ok_update (ok_update hok hmem1 hfr1 haLlt) hmem2 hfr2
        (by rw [hfr1]; omega)) _, ?_,
      fun h => absurd h.1 (by simp), fun _ => ⟨?_, ?_, ?_, hndm⟩⟩
    · rw [hlen]
      simp only [List.length_append, List.length_cons, List.length_nil]
      omega
    · refine seg_append.mpr ⟨?_, ?_⟩
      · rw [show fp ((b1, bv) :: bt) none = some b1 from rfl]
        refine seg_retarget hseg1 ?_ ?_
        · intro nd hnd2
          rw [hfaLe] at hnd2
          injection hnd2 with hnd2
          subst hnd2
          rw [hfind_destroy_ne hiaL.symm, hne2 aL haLb1, hset1]
        · intro j2 hj2
          have hj2aL : j2 ≠ aL := by
            intro hh
            subst hh
            exact (nodup_snoc hnda).2 hj2
          have hj2i : j2 ≠ i := by
            intro hh
            subst hh
            exact hias (by rw [ids_append]; exact List.mem_append_left _ hj2)
          have hj2b1 : j2 ≠ b1 := by
            intro hh
            subst hh
            exact hdisj (by rw [ids_append]; exact List.mem_append_left _ hj2)
              (List.mem_cons_self _ _)
          rw [hfind_destroy_ne hj2i, hne2 j2 hj2b1, hne1 j2 hj2aL]
      · rw [show fp ((b1, bv) :: bt) none = some b1 from rfl, lastPtr_snoc]
        refine seg_reprev hrest ?_ ?_
        · intro nd hnd2
          rw [hfb1] at hnd2
          injection hnd2 with hnd2
          subst hnd2
          rw [hfind_destroy_ne hib1.symm, hset2]
        · intro j2 hj2
          have hj2b1 : j2 ≠ b1 := fun hh => hb1bt (hh ▸ hj2)
          have hj2i : j2 ≠ i := by
            intro hh
            subst hh
            exact hibs (List.mem_cons_of_mem _ hj2)
          have hj2aL : j2 ≠ aL := by
            intro hh
            subst hh
            exact hdisj haLmemL (List.mem_cons_of_mem _ hj2)
          rw [hfind_destroy_ne hj2i, hne2 j2 hj2b1, hne1 j2 hj2aL]
    · have hRH : lastPtr (none : Option Nat)
          ((as2 ++ [(aL, av)]) ++ (b1, bv) :: bt) = lastPtr (some b1) bt := by
        rw [lastPtr_append]
        rfl
      rw [show ({ st with size := st.size - 1 } : Storage).tail = st.tail from rfl,
        htl, hLH, hRH]
    · show st.size - 1 = ((as2 ++ [(aL, av)]) ++ (b1, bv) :: bt).length
      rw [hlen]
      simp only [List.length_append, List.length_cons, List.length_nil]
      omega

theorem removeLoop_none (pred : α → Bool) (fuel : Nat) (m : Mem α)
    (st : Storage) (c : Nat) :
    removeLoop pred fuel m st none c = some (c, m, st) := by
  cases fuel <;> rfl

/-- The traversal of `remove_if`: one pass over the chain, deleting exactly
the nodes whose value satisfies the predicate. -/
theorem removeLoop_spec (pred : α → Bool) :
    ∀ (bs as : List (Nat × α)) (m : Mem α) (st : Storage) (c fuel : Nat),
      m.ok → wf m st (as ++ bs) → as ++ bs ≠ [] → bs.length < fuel →
      ∃ m2 st2, removeLoop pred fuel m st (fp bs none) c =
          some (c + (bs.filter (fun e => pred e.2)).length, m2, st2) ∧
        m2.ok ∧
        st2.size = (as ++ bs.filter (fun e => !pred e.2)).length ∧
        (as ++ bs.filter (fun e => !pred e.2) ≠ [] →
          wf m2 st2 (as ++ bs.filter (fun e => !pred e.2))) ∧
        (as ++ bs.filter (fun e => !pred e.2) = [] →
          (∃ k, st2.head = some k) ∧ (∃ k2, st2.tail = some k2)) := by
  intro bs
  induction bs with
  | nil =>
    intro as m st c fuel hok hw hne _
    refine ⟨m, st, ?_, hok, hw.2.2.1, fun _ => hw, fun h => absurd h hne⟩
    rw [show fp ([] : List (Nat × α)) none = none from rfl, removeLoop_none]
    simp
  | cons e bt ih =>
    obtain ⟨i, v⟩ := e
    intro as m st c fuel hok hw hne hfuel
    obtain ⟨fuel, rfl⟩ : ∃ f2, fuel = f2 + 1 := ⟨fuel - 1, by omega⟩
    have hfi : hfind m.heap i = some ⟨fp bt none, lastPtr none as, v⟩ := by
      obtain ⟨hseg1, hseg2⟩ := seg_append.mp hw.1
      rw [show fp ((i, v) :: bt) none = some i from rfl] at hseg2
      exact hseg2.2.1
    cases hp : pred v with
    | true =>
      obtain ⟨m2, st2, heqD, hok2, hsize2, hdeg, hwf2⟩ :=
        @deleteNode_spec α _ _ _ as bt _ _ hok hw
      have hsurv : as ++ ((i, v) :: bt).filter (fun e => !pred e.2) =
          as ++ bt.filter (fun e => !pred e.2) := by
        simp [List.filter_cons, hp]
      have hcount : ((i, v) :: bt).filter (fun e => pred e.2) =
          (i, v) :: bt.filter (fun e => pred e.2) := by
        simp [List.filter_cons, hp]
      by_cases hdegc : as = [] ∧ bt = []
      · obtain ⟨rfl, rfl⟩ := hdegc
        have hst2 := hdeg ⟨rfl, rfl⟩
        refine ⟨m2, st2, ?_, hok2, ?_, ?_, ?_⟩
        · rw [show fp [(i, v)] none = some i from rfl]
          simp [removeLoop, hfi, hp, heqD, removeLoop_none, hcount, fp]
        · rw [hst2]
          simp [List.filter_cons, hp]
        · intro h
          exact absurd (by simp [List.filter_cons, hp]) h
        · intro _
          have hhd : st.head = some i := by simpa using seg_fp hw.1
          have htl : st.tail = some i := by
            have := hw.2.1
            simpa [lastPtr] using this
          rw [hst2]
          exact ⟨⟨i, hhd⟩, ⟨i, htl⟩⟩
      · have hne2 : as ++ bt ≠ [] := by
          intro h
          exact hdegc ⟨List.append_eq_nil.mp h |>.1, List.append_eq_nil.mp h |>.2⟩
        obtain ⟨m3, st3, he3, hok3, hsize3, hwf3, hdeg3⟩ :=
          ih as m2 st2 (c + 1) fuel hok2 (hwf2 hdegc) hne2
            (by have hl : ((i, v) :: bt).length = bt.length + 1 := rfl; omega)
        refine ⟨m3, st3, ?_, hok3, ?_, ?_, ?_⟩
        · rw [show fp ((i, v) :: bt) none = some i from rfl]
          have harith : c + 1 + (bt.filter (fun e => pred e.2)).length =
              c + (((i, v) :: bt).filter (fun e => pred e.2)).length := by
            rw [hcount]
            simp
            omega
          rw [← harith]
          simp [removeLoop, hfi, hp, heqD, he3]
        · rw [hsurv]
          exact hsize3
        · rw [hsurv]
          exact hwf3
        · rw [hsurv]
          exact hdeg3
    | false =>
      have hw2 : wf m st ((as ++ [(i, v)]) ++ bt) := by
        rw [List.append_assoc]
        exact hw
      have hne2 : (as ++ [(i, v)]) ++ bt ≠ [] := by simp
      obtain ⟨m3, st3, he3, hok3, hsize3, hwf3, hdeg3⟩ :=
        ih (as ++ [(i, v)]) m st c fuel hok hw2 hne2
          (by have hl : ((i, v) :: bt).length = bt.length + 1 := rfl; omega)
      have hsurv : (as ++ [(i, v)]) ++ bt.filter (fun e => !pred e.2) =
          as ++ ((i, v) :: bt).filter (fun e => !pred e.2) := by
        rw [List.append_assoc]
        simp [List.filter_cons, hp]
      have hcount : ((i, v) :: bt).filter (fun e => pred e.2) =
          bt.filter (fun e => pred e.2) := by
        simp [List.filter_cons, hp]
      refine ⟨m3, st3, ?_, hok3, ?_, ?_, ?_⟩
      · rw [show fp ((i, v) :: bt) none = some i from rfl, hcount]
        simp [removeLoop, hfi, hp, he3]
      · rw [← hsurv]
        exact hsize3
      · rw [← hsurv]
        exact hwf3
      · rw [← hsurv]
        exact hdeg3

/-- C7: `remove_if` makes a single front-to-back pass, unlinks and destroys
exactly the nodes whose value satisfies the predicate, preserves the relative
order of the survivors, and returns the number of removed elements;
`remove(value)` is literally `remove_if` with an equality-to-value
predicate.  (The predicate in the model is pure, so "applied exactly once per
element" has no observable content beyond the result.) -/
theorem remove_if_filters (m : Mem α) (st : Storage) (xs : List (Nat × α))
    (pred : α → Bool) (hok : m.ok) (hw : wf m st xs) :
    (∃ m2 st2, remove_if m st pred =
        some ((xs.filter (fun e => pred e.2)).length, m2, st2) ∧
      st2.size = (xs.filter (fun e => !pred e.2)).length ∧
      valsN m2 st2.size st2.head =
        some ((xs.filter (fun e => !pred e.2)).map Prod.snd) ∧
      (xs.filter (fun e => !pred e.2) ≠ [] →
        wf m2 st2 (xs.filter (fun e => !pred e.2)))) ∧
    (∀ v, remove m st v = remove_if m st (fun x => x == v)) := by
  refine ⟨?_, fun v => rfl⟩
  cases xs with
  | nil =>
    have hsz : st.size = 0 := by simpa using hw.2.2.1
    refine ⟨m, st, ?_, ?_, ?_, fun h => absurd rfl h⟩
    · simp [remove_if, hsz]
    · simpa using hsz
    · rw [hsz]
      rfl
  | cons e xt =>
    have hsz : ¬(st.size = 0) := by
      rw [hw.2.2.1]
      simp
    have hhd : st.head = fp ((e :: xt) : List (Nat × α)) none := seg_fp hw.1
    have hfuel : (e :: xt).length < m.heap.length + 1 :=
      Nat.lt_succ_of_le (seg_length_le_heap hw.1 hw.2.2.2)
    obtain ⟨m2, st2, he, hok2, hsize2, hwf2, hdeg2⟩ :=
      removeLoop_spec pred (e :: xt) [] m st 0 (m.heap.length + 1) hok hw
        (by simp) hfuel
    rw [List.nil_append] at hsize2 hwf2 hdeg2
    refine ⟨m2, st2, ?_, hsize2, ?_, hwf2⟩
    · rw [show remove_if m st pred =
          removeLoop pred (m.heap.length + 1) m st st.head 0 from by
            simp [remove_if, hsz]]
      rw [hhd]
      simpa using he
    · by_cases hs : (e :: xt).filter (fun e => !pred e.2) = []
      · rw [hs] at hsize2 ⊢
        rw [hsize2]
        rfl
      · rw [wf_valsN (hwf2 hs)]

/-- Witness for C7: removing the even values from `[1, 2, 3, 4]` leaves
`[1, 3]` and returns 2. -/
theorem remove_if_filters_witness :
    (∃ m2 st2, remove_if
        (⟨[(0, ⟨some 1, none, 1⟩), (1, ⟨some 2, some 0, 2⟩),
           (2, ⟨some 3, some 1, 3⟩), (3, ⟨none, some 2, 4⟩)], 4, []⟩ : Mem Nat)
        ⟨some 0, some 3, 4⟩ (fun x => x % 2 == 0) =
        some ((([(0, 1), (1, 2), (2, 3), (3, 4)] : List (Nat × Nat)).filter
          (fun e => e.2 % 2 == 0)).length, m2, st2) ∧
      st2.size = (([(0, 1), (1, 2), (2, 3), (3, 4)] : List (Nat × Nat)).filter
        (fun e => !(e.2 % 2 == 0))).length ∧
      valsN m2 st2.size st2.head =
        some ((([(0, 1), (1, 2), (2, 3), (3, 4)] : List (Nat × Nat)).filter
          (fun e => !(e.2 % 2 == 0))).map Prod.snd) ∧
      (([(0, 1), (1, 2), (2, 3), (3, 4)] : List (Nat × Nat)).filter
          (fun e => !(e.2 % 2 == 0)) ≠ [] →
        wf m2 st2 (([(0, 1), (1, 2), (2, 3), (3, 4)] : List (Nat × Nat)).filter
          (fun e => !(e.2 % 2 == 0))))) ∧
    (∀ v, remove (⟨[(0, ⟨some 1, none, 1⟩), (1, ⟨some 2, some 0, 2⟩),
        (2, ⟨some 3, some 1, 3⟩), (3, ⟨none, some 2, 4⟩)], 4, []⟩ : Mem Nat)
        ⟨some 0, some 3, 4⟩ v =
      remove_if (⟨[(0, ⟨some 1, none, 1⟩), (1, ⟨some 2, some 0, 2⟩),
        (2, ⟨some 3, some 1, 3⟩), (3, ⟨none, some 2, 4⟩)], 4, []⟩ : Mem Nat)
        ⟨some 0, some 3, 4⟩ (fun x => x == v)) :=
  remove_if_filters
    ⟨[(0, ⟨some 1, none, 1⟩), (1, ⟨some 2, some 0, 2⟩),
      (2, ⟨some 3, some 1, 3⟩), (3, ⟨none, some 2, 4⟩)], 4, []⟩
    ⟨some 0, some 3, 4⟩ [(0, 1), (1, 2), (2, 3), (3, 4)] (fun x => x % 2 == 0)
    (by decide) (by decide)

/-- Counterexample for C1: erasing the last remaining element of the
well-formed singleton list `[5]` leaves `size() == 0` while the head and tail
handles stay non-null (dangling), so `head == null ⇔ size == 0` fails right
after a public operation. -/
theorem erase_last_leaves_dangling_head :
    wf (⟨[(0, ⟨none, none, 5⟩)], 1, []⟩ : Mem Nat) ⟨some 0, some 0, 1⟩ [(0, 5)] ∧
    (erase1 (⟨[(0, ⟨none, none, 5⟩)], 1, []⟩ : Mem Nat) ⟨some 0, some 0, 1⟩
        (some 0)).map (fun r => (r.2.2.size, r.2.2.head, r.2.2.tail)) =
      some (0, some 0, some 0) := by
  constructor <;> decide

/-- C1 (amended): for every well-formed list the observable invariant
`size()==0 ⇔ empty() ⇔ front()==null ⇔ back()==null` holds, but the storage
handles are not always reset: after `erase(position)` removes the last
remaining element, and after `remove_if` removes every element, `_Head` and
`_Tail` retain non-null dangling values while `size()==0` (so
`head == null ⇔ size == 0` fails there, even though `front()`/`back()` still
report null because they re-check emptiness). -/
theorem storage_invariant_status (m : Mem α) :
    (∀ (st : Storage) (xs : List (Nat × α)), wf m st xs →
      ((st.size = 0 ↔ xs = []) ∧ (emptyb st = true ↔ st.size = 0) ∧
        (front m st = none ↔ st.size = 0) ∧ (back m st = none ↔ st.size = 0))) ∧
    (∀ (st : Storage) (i : Nat) (v : α), m.ok → wf m st [(i, v)] →
      ∃ m2 st2, erase1 m st (some i) = some (none, m2, st2) ∧
        st2.size = 0 ∧ st2.head = some i ∧ st2.tail = some i ∧
        front m2 st2 = none ∧ back m2 st2 = none) ∧
    (∀ (st : Storage) (xs : List (Nat × α)) (pred : α → Bool),
      m.ok → wf m st xs → xs ≠ [] → (∀ e ∈ xs, pred e.2 = true) →
      ∃ c m2 st2, remove_if m st pred = some (c, m2, st2) ∧
        st2.size = 0 ∧ st2.head ≠ none ∧ st2.tail ≠ none ∧
        front m2 st2 = none ∧ back m2 st2 = none) := by
  refine ⟨?_, ?_, ?_⟩
  · intro st xs hw
    have hlen := hw.2.2.1
    refine ⟨?_, by simp [emptyb], ?_, ?_⟩
    · rw [hlen]
      simp [List.length_eq_zero]
    · by_cases hs : st.size = 0
      · simp [front, hs]
      · have hxs : xs ≠ [] := by
          intro h
          rw [h] at hlen
          exact hs (by simpa using hlen)
        obtain ⟨i, v, xt, rfl⟩ : ∃ i v xt, xs = (i, v) :: xt := by
          cases xs with
          | nil => exact absurd rfl hxs
          | cons e xt => exact ⟨e.1, e.2, xt, rfl⟩
        obtain ⟨hhd, hfi, -⟩ := hw.1
        simp [front, hs, hhd, deref, hfi]
    · by_cases hs : st.size = 0
      · simp [back, hs]
      · have hxs : xs ≠ [] := by
          intro h
          rw [h] at hlen
          exact hs (by simpa using hlen)
        rcases List.eq_nil_or_concat xs with rfl | ⟨ys, ⟨t, tv⟩, hxs2⟩
        · exact absurd rfl hxs
        rw [List.concat_eq_append] at hxs2
        subst hxs2
        have htl : st.tail = some t := by rw [hw.2.1, lastPtr_snoc]
        have hft : hfind m.heap t = some ⟨none, lastPtr none ys, tv⟩ := by
          obtain ⟨-, hseg2⟩ := seg_append.mp hw.1
          rw [show fp [(t, tv)] none = some t from rfl] at hseg2
          exact (seg_singleton.mp hseg2).2
        simp [back, hs, htl, deref, hft]
  · intro st i v hok hw
    obtain ⟨r, m2, st2, he, hsz, hok2, hnil, -⟩ := erase_head hok hw
    obtain ⟨hr, hh, ht⟩ := hnil rfl
    subst hr
    refine ⟨m2, st2, he, by simpa using hsz, hh, ht, ?_, ?_⟩
    · simp [front, show st2.size = 0 from by simpa using hsz]
    · simp [back, show st2.size = 0 from by simpa using hsz]
  · intro st xs pred hok hw hxs hall
    have hfilter : xs.filter (fun e => !pred e.2) = [] := by
      rw [List.filter_eq_nil]
      intro e he
      simp [hall e he]
    have hsz : ¬(st.size = 0) := by
      rw [hw.2.2.1]
      intro h
      exact hxs (List.length_eq_zero.mp h)
    have hhd : st.head = fp xs none := seg_fp hw.1
    have hfuel : xs.length < m.heap.length + 1 :=
      Nat.lt_succ_of_le (seg_length_le_heap hw.1 hw.2.2.2)
    obtain ⟨m2, st2, he, hok2, hsize2, hwf2, hdeg2⟩ :=
      removeLoop_spec pred xs [] m st 0 (m.heap.length + 1) hok hw
        (by simpa using hxs) hfuel
    rw [List.nil_append] at hsize2 hwf2 hdeg2
    obtain ⟨⟨k1, hk1⟩, ⟨k2, hk2⟩⟩ := hdeg2 hfilter
    have hsz0 : st2.size = 0 := by
      rw [hsize2, hfilter]
      rfl
    refine ⟨0 + (xs.filter (fun e => pred e.2)).length, m2, st2, ?_, hsz0,
      by rw [hk1]; simp, by rw [hk2]; simp,
      by simp [front, hsz0], by simp [back, hsz0]⟩
    rw [show remove_if m st pred =
        removeLoop pred (m.heap.length + 1) m st st.head 0 from by
          simp [remove_if, hsz],
      hhd]
    exact he

/-- Witness for C1 at concrete lists: the observable equivalence on `[5]`,
the dangling handles after erasing the only element of `[5]`, and after
`remove_if` removes everything from `[7, 8]`. -/
theorem storage_invariant_status_witness :
    (((⟨some 0, some 0, 1⟩ : Storage).size = 0 ↔
        ([(0, 5)] : List (Nat × Nat)) = []) ∧
      (emptyb ⟨some 0, some 0, 1⟩ = true ↔ (⟨some 0, some 0, 1⟩ : Storage).size = 0) ∧
      (front (⟨[(0, ⟨none, none, 5⟩)], 1, []⟩ : Mem Nat) ⟨some 0, some 0, 1⟩ = none ↔
        (⟨some 0, some 0, 1⟩ : Storage).size = 0) ∧
      (back (⟨[(0, ⟨none, none, 5⟩)], 1, []⟩ : Mem Nat) ⟨some 0, some 0, 1⟩ = none ↔
        (⟨some 0, some 0, 1⟩ : Storage).size = 0)) ∧
    (∃ m2 st2, erase1 (⟨[(0, ⟨none, none, 5⟩)], 1, []⟩ : Mem Nat)
        ⟨some 0, some 0, 1⟩ (some 0) = some (none, m2, st2) ∧
      st2.size = 0 ∧ st2.head = some 0 ∧ st2.tail = some 0 ∧
      front m2 st2 = none ∧ back m2 st2 = none) ∧
    (∃ c m2 st2, remove_if
        (⟨[(0, ⟨some 1, none, 7⟩), (1, ⟨none, some 0, 8⟩)], 2, []⟩ : Mem Nat)
        ⟨some 0, some 1, 2⟩ (fun _ => true) = some (c, m2, st2) ∧
      st2.size = 0 ∧ st2.head ≠ none ∧ st2.tail ≠ none ∧
      front m2 st2 = none ∧ back m2 st2 = none) :=
  ⟨(storage_invariant_status ⟨[(0, ⟨none, none, 5⟩)], 1, []⟩).1
      ⟨some 0, some 0, 1⟩ [(0, 5)] (by decide),
    (storage_invariant_status ⟨[(0, ⟨none, none, 5⟩)], 1, []⟩).2.1
      ⟨some 0, some 0, 1⟩ 0 5 (by decide) (by decide),
    (storage_invariant_status
        ⟨[(0, ⟨some 1, none, 7⟩), (1, ⟨none, some 0, 8⟩)], 2, []⟩).2.2
      ⟨some 0, some 1, 2⟩ [(0, 7), (1, 8)] (fun _ => true) (by decide) (by decide)
      (by decide) (fun e _ => rfl)⟩

/-- `insert(position, value)` with room and a successful allocation splices a
fresh node before the position `fp bs none` of a chain `as ++ bs`, returning
an iterator to the new node. -/
theorem insert1_spec {msz : Nat} {m : Mem α} {st : Storage}
    {as bs : List (Nat × α)} {v : α}
    (hok : m.ok) (hw : wf m st (as ++ bs)) (hsz : st.size ≠ msz)
    (ha : m.alloc = [] ∨ ∃ r, m.alloc = true :: r) :
    ∃ m2 st2, insert1 msz m st (fp bs none) v = some (some m.fresh, m2, st2) ∧
      wf m2 st2 (as ++ (m.fresh, v) :: bs) ∧ m2.ok ∧
      m2.fresh = m.fresh + 1 ∧ m2.alloc = m.alloc.tail ∧
      st2.size = st.size + 1 := by
  rcases List.eq_nil_or_concat as with rfl | ⟨as2, ⟨aL, av⟩, hxs⟩
  · cases bs with
    | nil =>
      -- empty list: the push_back path, returning begin()
      have hsz0 : st.size = 0 := by simpa using hw.2.2.1
      obtain ⟨m1, st1, he1, hw1, hok1, hfr1, hal1, hsize1, _, _⟩ :=
        push_back_success (v := v) hok hw hsz ha
      have hhd1 : st1.head = some m.fresh := by
        have h2 := seg_fp hw1.1
        simpa [fp] using h2
      refine ⟨m1, st1, ?_, by simpa using hw1, hok1, hfr1, hal1, hsize1⟩
      have hsz2 : ¬(0 = msz) := by
        rw [hsz0] at hsz
        exact hsz
      simp [insert1, hsz2, hsz0, he1, hhd1, fp]
    | cons e bt =>
      -- before the first node: the cbegin branch
      obtain ⟨b1, bv⟩ := e
      obtain ⟨hs, htl, hlen, hnd⟩ := hw
      have hsz0 : st.size ≠ 0 := by
        rw [hlen]
        simp
      obtain ⟨hhd, hfb1, hrest⟩ := hs
      have hb1lt : b1 < m.fresh := hok _ (hfind_mem hfb1)
      have hb1bt : b1 ∉ ids bt := (List.nodup_cons.mp hnd).1
      have hbtlt : ∀ j ∈ ids bt, j < m.fresh := by
        intro j hj
        obtain ⟨nd, hfj⟩ := seg_find_isSome hrest j hj
        exact hok _ (hfind_mem hfj)
      set m1 : Mem α := ⟨(m.fresh, ⟨none, none, v⟩) :: m.heap, m.fresh + 1,
        m.alloc.tail⟩ with hm1
      have hok1 : m1.ok := ok_cons_fresh hok _ _
      have hm1find : ∀ j, j ≠ m.fresh → hfind m1.heap j = hfind m.heap j :=
        fun j hj => hfind_cons_ne hj
      have hm1b1 : hfind m1.heap b1 = some ⟨fp bt none, none, bv⟩ := by
        rw [hm1find b1 (by omega)]
        exact hfb1
      obtain ⟨m2, he2, hset2, hne2, hfr2, hal2, hmem2, hlen2⟩ :=
        setPrev_spec (m := m1) (i := b1) (some m.fresh) hm1b1
      have hm2fresh : hfind m2.heap m.fresh = some ⟨none, none, v⟩ := by
        rw [hne2 m.fresh (by omega)]
        exact hfind_cons_self
      obtain ⟨m3, he3, hset3, hne3, hfr3, hal3, hmem3, hlen3⟩ :=
        setNext_spec (m := m2) (i := m.fresh) (some b1) hm2fresh
      refine ⟨m3, { st with head := some m.fresh, size := st.size + 1 }, ?_,
        ⟨?_, ?_, by simp [hlen] <;> omega, ?_⟩,
        ok_update (ok_update hok1 hmem2 hfr2 (by exact Nat.lt_succ_of_lt hb1lt))
          hmem3 hfr3 (by rw [hfr2]; exact Nat.lt_succ_self _),
        by rw [hfr3, hfr2], by rw [hal3, hal2], rfl⟩
      · simp only [insert1, if_neg hsz, if_neg hsz0, makeNode_success ha,
          show fp ((b1, bv) :: bt) none = some b1 from rfl, ← hm1]
        rw [if_pos (by rw [hhd]), hhd]
        rw [show setPrev m1 (some b1) (some m.fresh) = some m2 from he2]
        simp [he3]
      · refine ⟨rfl, by rw [hset3]; rfl, ?_⟩
        rw [show fp ((b1, bv) :: bt) none = some b1 from rfl]
        refine ⟨rfl, by rw [hne3 b1 (by omega), hset2], ?_⟩
        refine seg_frame ?_ hrest
        intro j hj
        have hjlt : j < m.fresh := hbtlt j hj
        have hjb1 : j ≠ b1 := fun hh => hb1bt (hh ▸ hj)
        rw [hne3 j (by omega), hne2 j hjb1, hm1find j (by omega)]
      · rw [htl]
        rfl
      · refine List.nodup_cons.mpr ⟨?_, hnd⟩
        intro hmem
        rcases (show m.fresh = b1 ∨ m.fresh ∈ ids bt from by
          simpa [ids] using hmem) with hh | hh
        · omega
        · exact absurd (hbtlt _ hh) (by omega)
  · rw [List.concat_eq_append] at hxs
    subst hxs
    cases bs with
    | nil =>
      -- at the past-the-end position: the cend branch
      have hw2 : wf m st (as2 ++ [(aL, av)]) := by simpa using hw
      obtain ⟨hs, htl, hlen, hnd⟩ := hw2
      have hsz0 : st.size ≠ 0 := by
        rw [hlen]
        simp
      have htl2 : st.tail = some aL := by rw [htl, lastPtr_snoc]
      obtain ⟨hseg1, hseg2⟩ := seg_append.mp hs
      rw [show fp [(aL, av)] none = some aL from rfl] at hseg1 hseg2
      have hfaL : hfind m.heap aL = some ⟨none, lastPtr none as2, av⟩ :=
        (seg_singleton.mp hseg2).2
      have haLlt : aL < m.fresh := hok _ (hfind_mem hfaL)
      have haLnas2 : aL ∉ ids as2 := (nodup_snoc hnd).2
      have has2lt : ∀ j ∈ ids as2, j < m.fresh := by
        intro j hj
        obtain ⟨nd, hfj⟩ := seg_find_isSome hseg1 j hj
        exact hok _ (hfind_mem hfj)
      have hhd : ∃ k, st.head = some k ∧ k ∈ ids (as2 ++ [(aL, av)]) := by
        have hfp := seg_fp hs
        cases as2 with
        | nil => exact ⟨aL, by simpa [fp] using hfp, by simp [ids]⟩
        | cons e r2 => exact ⟨e.1, by simpa [fp] using hfp, by simp [ids]⟩
      obtain ⟨k, hhdk, hkmem⟩ := hhd
      set m1 : Mem α := ⟨(m.fresh, ⟨none, none, v⟩) :: m.heap, m.fresh + 1,
        m.alloc.tail⟩ with hm1
      have hok1 : m1.ok := ok_cons_fresh hok _ _
      have hm1find : ∀ j, j ≠ m.fresh → hfind m1.heap j = hfind m.heap j :=
        fun j hj => hfind_cons_ne hj
      have hm1fresh : hfind m1.heap m.fresh = some ⟨none, none, v⟩ :=
        hfind_cons_self
      obtain ⟨m2, he2, hset2, hne2, hfr2, hal2, hmem2, hlen2⟩ :=
        setPrev_spec (m := m1) (i := m.fresh) (some aL) hm1fresh
      have hm2aL : hfind m2.heap aL = some ⟨none, lastPtr none as2, av⟩ := by
        rw [hne2 aL (by omega), hm1find aL (by omega)]
        exact hfaL
      obtain ⟨m3, he3, hset3, hne3, hfr3, hal3, hmem3, hlen3⟩ :=
        setNext_spec (m := m2) (i := aL) (some m.fresh) hm2aL
      have hhdnn : ¬((none : Option Nat) = st.head) := by
        rw [hhdk]
        simp
      refine ⟨m3, { st with tail := some m.fresh, size := st.size + 1 }, ?_,
        ⟨?_, by rw [lastPtr_append]; rfl, by simp [hlen] <;> omega, ?_⟩,
        ok_update (ok_update hok1 hmem2 hfr2 (by exact Nat.lt_succ_self _))
          hmem3 hfr3 (by rw [hfr2]; exact Nat.lt_succ_of_lt haLlt),
        by rw [hfr3, hfr2], by rw [hal3, hal2], rfl⟩
      · simp only [insert1, if_neg hsz, if_neg hsz0, makeNode_success ha,
          show fp ([] : List (Nat × α)) none = (none : Option Nat) from rfl, ← hm1]
        rw [if_neg hhdnn, if_pos trivial, htl2]
        rw [show setPrev m1 (some m.fresh) (some aL) = some m2 from he2]
        simp [he3]
      · -- new chain as2 ++ [(aL, av)] ++ [(m.fresh, v)]
        have hsegA : seg m3.heap none st.head as2 (some aL) := by
          refine seg_frame ?_ hseg1
          intro j hj
          have hjlt := has2lt j hj
          have hjaL : j ≠ aL := fun hh => haLnas2 (hh ▸ hj)
          rw [hne3 j hjaL, hne2 j (by omega), hm1find j (by omega)]
        refine seg_append.mpr ⟨?_, ?_⟩
        · rw [show fp ((m.fresh, v) :: []) none = some m.fresh from rfl]
          refine seg_append.mpr ⟨?_, ?_⟩
          · rw [show fp [(aL, av)] (some m.fresh) = some aL from rfl]
            exact hsegA
          · rw [show fp [(aL, av)] (some m.fresh) = some aL from rfl]
            refine seg_singleton.mpr ⟨rfl, ?_⟩
            rw [hset3]
        · rw [show fp ((m.fresh, v) :: []) none = some m.fresh from rfl,
            lastPtr_snoc]
          refine seg_singleton.mpr ⟨rfl, ?_⟩
          rw [hne3 m.fresh (by omega), hset2]
      · rw [ids_append]
        refine List.Nodup.append hnd (by simp [ids]) ?_
        intro a ha1 ha2
        have h2 : a = m.fresh := by simpa [ids] using ha2
        subst h2
        rcases (show m.fresh ∈ ids as2 ∨ m.fresh = aL from by
          rw [ids_append] at ha1; simpa [ids] using ha1) with hh | hh
        · exact absurd (has2lt _ hh) (by omega)
        · omega
    | cons e bt =>
      -- interior position
      obtain ⟨b1, bv⟩ := e
      obtain ⟨hs, htl, hlen, hnd⟩ := hw
      have hsz0 : st.size ≠ 0 := by
        rw [hlen]
        simp
      obtain ⟨hseg1, hseg2⟩ := seg_append.mp hs
      rw [show fp ((b1, bv) :: bt) none = some b1 from rfl] at hseg1 hseg2
      rw [lastPtr_snoc] at hseg2
      obtain ⟨-, hfb1, hrest⟩ := hseg2
      obtain ⟨hseg1a, hseg1b⟩ := seg_append.mp hseg1
      rw [show fp [(aL, av)] (some b1) = some aL from rfl] at hseg1a hseg1b
      have hfaL : hfind m.heap aL = some ⟨some b1, lastPtr none as2, av⟩ :=
        (seg_singleton.mp hseg1b).2
      have haLlt : aL < m.fresh := hok _ (hfind_mem hfaL)
      have hb1lt : b1 < m.fresh := hok _ (hfind_mem hfb1)
      have hndm2 : (ids (as2 ++ [(aL, av)]) ++ ids ((b1, bv) :: bt)).Nodup := by
        rw [ids_append] at hnd
        exact hnd
      have hnda : (ids (as2 ++ [(aL, av)])).Nodup := (List.nodup_append.mp hndm2).1
      have hndb : (ids ((b1, bv) :: bt)).Nodup := (List.nodup_append.mp hndm2).2.1
      have hdisj : (ids (as2 ++ [(aL, av)])).Disjoint (ids ((b1, bv) :: bt)) :=
        (List.nodup_append.mp hndm2).2.2
      have haLmemL : aL ∈ ids (as2 ++ [(aL, av)]) := by
        rw [ids_append]
        exact List.mem_append_right _ (by simp [ids])
      have haLb1 : aL ≠ b1 := by
        intro hh
        exact hdisj haLmemL (by rw [hh]; exact List.mem_cons_self _ _)
      have hb1bt : b1 ∉ ids bt := (List.nodup_cons.mp hndb).1
      have haLnas2 : aL ∉ ids as2 := (nodup_snoc hnda).2
      have hallt : ∀ j ∈ ids (as2 ++ [(aL, av)]), j < m.fresh :=
        seg_ids_lt hok hseg1
      have hbtlt : ∀ j ∈ ids bt, j < m.fresh := by
        intro j hj
        obtain ⟨nd, hfj⟩ := seg_find_isSome hrest j hj
        exact hok _ (hfind_mem hfj)
      have hhd : ∃ k, st.head = some k ∧ k ∈ ids (as2 ++ [(aL, av)]) := by
        have hfp := seg_fp hseg1
        cases as2 with
        | nil => exact ⟨aL, by simpa [fp] using hfp, by simp [ids]⟩
        | cons e2 r2 => exact ⟨e2.1, by simpa [fp] using hfp, by simp [ids]⟩
      obtain ⟨k, hhdk, hkmem⟩ := hhd
      have hb1hd : ¬((some b1 : Option Nat) = st.head) := by
        rw [hhdk]
        intro hh
        injection hh with hh
        exact hdisj (hh ▸ hkmem) (List.mem_cons_self _ _)
      set m1 : Mem α := ⟨(m.fresh, ⟨none, none, v⟩) :: m.heap, m.fresh + 1,
        m.alloc.tail⟩ with hm1
      have hok1 : m1.ok := ok_cons_fresh hok _ _
      have hm1find : ∀ j, j ≠ m.fresh → hfind m1.heap j = hfind m.heap j :=
        fun j hj => hfind_cons_ne hj
      have hm1b1 : hfind m1.heap b1 = some ⟨fp bt none, some aL, bv⟩ := by
        rw [hm1find b1 (by omega)]
        exact hfb1
      obtain ⟨m2, he2, hset2, hne2, hfr2, hal2, hmem2, hlen2⟩ :=
        setPrev_spec (m := m1) (i := b1) (some m.fresh) hm1b1
      have hm2fresh : hfind m2.heap m.fresh = some ⟨none, none, v⟩ := by
        rw [hne2 m.fresh (by omega)]
        exact hfind_cons_self
      obtain ⟨m3, he3, hset3, hne3, hfr3, hal3, hmem3, hlen3⟩ :=
        setPrev_spec (m := m2) (i := m.fresh) (some aL) hm2fresh
      have hm3fresh : hfind m3.heap m.fresh = some ⟨none, some aL, v⟩ := hset3
      obtain ⟨m4, he4, hset4, hne4, hfr4, hal4, hmem4, hlen4⟩ :=
        setNext_spec (m := m3) (i := m.fresh) (some b1) hm3fresh
      have hm4aL : hfind m4.heap aL = some ⟨some b1, lastPtr none as2, av⟩ := by
        rw [hne4 aL (by omega), hne3 aL (by omega), hne2 aL haLb1,
          hm1find aL (by omega)]
        exact hfaL
      obtain ⟨m5, he5, hset5, hne5, hfr5, hal5, hmem5, hlen5⟩ :=
        setNext_spec (m := m4) (i := aL) (some m.fresh) hm4aL
      refine ⟨m5, { st with size := st.size + 1 }, ?_,
        ⟨?_, ?_, by simp [hlen] <;> omega, ?_⟩,
        ok_update (ok_update (ok_update (ok_update hok1 hmem2 hfr2
          (by exact Nat.lt_succ_of_lt hb1lt))
          hmem3 hfr3 (by rw [hfr2]; exact Nat.lt_succ_self _)) hmem4 (by rw [hfr4])
          (by rw [hfr3, hfr2]; exact Nat.lt_succ_self _)) hmem5 hfr5
          (by rw [hfr4, hfr3, hfr2]; exact Nat.lt_succ_of_lt haLlt),
        by rw [hfr5, hfr4, hfr3, hfr2], by rw [hal5, hal4, hal3, hal2], rfl⟩
      · simp only [insert1, if_neg hsz, if_neg hsz0, makeNode_success ha,
          show fp ((b1, bv) :: bt) none = some b1 from rfl, ← hm1]
        rw [if_neg hb1hd, if_neg (by simp), show deref m1 (some b1) =
          some ⟨fp bt none, some aL, bv⟩ from hm1b1]
        rw [show setPrev m1 (some b1) (some m.fresh) = some m2 from he2]
        simp [he3, he4, he5]
      · -- the chain with the fresh node spliced in the middle
        have hsegA : seg m5.heap none st.head as2 (some aL) := by
          refine seg_frame ?_ hseg1a
          intro j hj
          have hjlt : j < m.fresh :=
            hallt j (by rw [ids_append]; exact List.mem_append_left _ hj)
          have hjaL : j ≠ aL := fun hh => haLnas2 (hh ▸ hj)
          have hjb1 : j ≠ b1 := by
            intro hh
            subst hh
            exact hdisj (by rw [ids_append]; exact List.mem_append_left _ hj)
              (List.mem_cons_self _ _)
          rw [hne5 j hjaL, hne4 j (by omega), hne3 j (by omega), hne2 j hjb1,
            hm1find j (by omega)]
        refine seg_append.mpr ⟨?_, ?_⟩
        · rw [show fp ((m.fresh, v) :: (b1, bv) :: bt) none = some m.fresh
            from rfl]
          refine seg_append.mpr ⟨?_, ?_⟩
          · rw [show fp [(aL, av)] (some m.fresh) = some aL from rfl]
            exact hsegA
          · rw [show fp [(aL, av)] (some m.fresh) = some aL from rfl]
            refine seg_singleton.mpr ⟨rfl, ?_⟩
            rw [hset5]
        · rw [show fp ((m.fresh, v) :: (b1, bv) :: bt) none = some m.fresh
            from rfl, lastPtr_snoc]
          refine ⟨rfl, ?_, ?_⟩
          · rw [hne5 m.fresh (by omega), hset4]; rfl
          · rw [show fp ((b1, bv) :: bt) none = some b1 from rfl]
            have hseg2b : seg m.heap (some aL) (some b1) ((b1, bv) :: bt) none :=
              ⟨rfl, hfb1, hrest⟩
            refine seg_reprev hseg2b ?_ ?_
            · intro nd hnd2
              rw [hfb1] at hnd2
              injection hnd2 with hnd2
              subst hnd2
              rw [hne5 b1 (Ne.symm haLb1), hne4 b1 (by omega),
                hne3 b1 (by omega), hset2]
            · intro j hj
              have hjb1 : j ≠ b1 := fun hh => hb1bt (hh ▸ hj)
              have hjaL : j ≠ aL := by
                intro hh
                subst hh
                exact hdisj haLmemL (List.mem_cons_of_mem _ hj)
              have hjlt := hbtlt j hj
              rw [hne5 j hjaL, hne4 j (by omega), hne3 j (by omega),
                hne2 j hjb1, hm1find j (by omega)]
      · have hL1 : lastPtr (none : Option Nat)
            ((as2 ++ [(aL, av)]) ++ (b1, bv) :: bt) = lastPtr (some b1) bt := by
          rw [lastPtr_append]
          rfl
        have hL2 : lastPtr (none : Option Nat)
            ((as2 ++ [(aL, av)]) ++ (m.fresh, v) :: (b1, bv) :: bt) =
              lastPtr (some b1) bt := by
          rw [lastPtr_append]
          rfl
        rw [show ({ st with size := st.size + 1 } : Storage).tail = st.tail
          from rfl, htl, hL1, hL2]
      · rw [ids_append]
        rw [show ids ((m.fresh, v) :: (b1, bv) :: bt) =
          m.fresh :: ids ((b1, bv) :: bt) from rfl, List.nodup_middle]
        refine List.nodup_cons.mpr ⟨?_, hndm2⟩
        intro hmem
        rcases List.mem_append.mp hmem with hh | hh
        · exact absurd (hallt _ hh) (by omega)
        · rcases (show m.fresh = b1 ∨ m.fresh ∈ ids bt from by
            simpa [ids] using hh) with hh2 | hh2
          · omega
          · exact absurd (hbtlt _ hh2) (by omega)

/-- Success run of the count-insert loop with an all-success allocation
oracle: `count` copies of `v` are spliced in immediately before `bs`, and the
returned iterator designates the last node inserted (or the incoming `iter`
when `count = 0`). -/
theorem insertLoop_success {msz : Nat} {v : α} (count : Nat) {m : Mem α}
    {st : Storage} {as bs : List (Nat × α)} {iter : Option Nat}
    (hok : m.ok) (hw : wf m st (as ++ bs)) (hal : m.alloc = [])
    (hsz : st.size + count ≤ msz) :
    ∃ m2 st2 blk, insertLoop msz v count m st (fp bs none) iter =
        some (fp blk iter, m2, st2) ∧
      wf m2 st2 (as ++ blk ++ bs) ∧ m2.ok ∧ m2.alloc = [] ∧
      blk.map Prod.snd = List.replicate count v ∧
      st2.size = st.size + count := by
  induction count generalizing m st bs iter with
  | zero =>
    exact ⟨m, st, [], rfl, by simpa using hw, hok, hal, rfl, rfl⟩
  | succ c ih =>
    obtain ⟨m1, st1, heq1, hw1, hok1, hfr1, hal1, hsz1⟩ :=
      @insert1_spec α _ msz _ _ _ _ v hok hw (by omega) (Or.inl hal)
    have hal1e : m1.alloc = [] := by rw [hal1, hal]; rfl
    obtain ⟨m2, st2, blk, heq2, hw2, hok2, hal2, hmap2, hsz2⟩ :=
      @ih m1 st1 ((m.fresh, v) :: bs) (some m.fresh) hok1 hw1 hal1e (by omega)
    refine ⟨m2, st2, blk ++ [(m.fresh, v)], ?_, ?_, hok2, hal2, ?_, by omega⟩
    · rw [show insertLoop msz v (c + 1) m st (fp bs none) iter =
        Option.bind (insert1 msz m st (fp bs none) v)
          (fun x => insertLoop msz v c x.2.1 x.2.2 x.1 x.1) from rfl, heq1]
      rw [show fp (blk ++ [(m.fresh, v)]) iter =
        fp blk (some m.fresh) from by rw [fp_append]; rfl]
      exact heq2
    · rw [show as ++ (blk ++ [(m.fresh, v)]) ++ bs =
        as ++ blk ++ (m.fresh, v) :: bs from by simp]
      exact hw2
    · rw [List.map_append, hmap2]
      rw [show List.replicate (c + 1) v = List.replicate c v ++ [v] from
        (List.replicate_succ' c v)]
      rfl

/-- After a failed node allocation the count-insert loop does not stop: it
continues with `_Where` reset to the null (end) iterator and the remaining
count. -/
theorem insertN_continues_after_fail {msz : Nat} {m : Mem α} {st : Storage}
    {w : Option Nat} {v : α} {c : Nat} {r : List Bool}
    (hsz : st.size ≠ msz) (hsz0 : st.size ≠ 0) (ha : m.alloc = false :: r) :
    insertN msz m st w (c + 1) v =
      insertLoop msz v c ⟨m.heap, m.fresh, r⟩ st none none := by
  simp [insertN, insertLoop, insert1, hsz, hsz0, makeNode_fail ha]

/-- The range form dereferences the iterator returned by each insertion, so a
failed allocation makes it dereference the null iterator: undefined behavior
(`none`). -/
theorem insertRange_fail_ub {msz : Nat} {m : Mem α} {st : Storage}
    {w : Option Nat} {v : α} {rest : List α} {r : List Bool}
    (hsz : st.size ≠ msz) (hsz0 : st.size ≠ 0) (ha : m.alloc = false :: r) :
    insertRange msz m st w (v :: rest) = none := by
  simp [insertRange, insertRangeLoop, insert1, hsz, hsz0, makeNode_fail ha,
    deref]

/-- C4: contrary to the claim, the count and range forms of `insert` do not
stop at the first allocation failure.  (i) With an all-success oracle the
count form does insert `count` copies of the value immediately before the
position, returning an iterator to the last node inserted.  (ii) After a
failed node allocation the count-form loop continues with the remaining count
and with the position reset to the null (end) iterator.  (iii) Concretely,
inserting 2 copies of 7 at `begin()` of the one-element list `[10]` with the
first allocation failing and the second succeeding yields `[10, 7]`: an
element is added beyond the successfully inserted prefix (which is empty),
and at the end rather than at the requested position.  (iv) The range form
dereferences the iterator returned by every insertion, so any allocation
failure makes it dereference the null iterator: undefined behavior. -/
theorem insert_partial_failure :
    (∀ (msz count v : Nat) (m : Mem Nat) (st : Storage)
        (as bs : List (Nat × Nat)), m.ok → wf m st (as ++ bs) →
        m.alloc = [] → st.size + count ≤ msz →
        ∃ m2 st2 blk, insertN msz m st (fp bs none) count v =
            some (fp blk none, m2, st2) ∧
          wf m2 st2 (as ++ blk ++ bs) ∧
          blk.map Prod.snd = List.replicate count v ∧
          st2.size = st.size + count) ∧
    (∀ (msz : Nat) (m : Mem Nat) (st : Storage) (w : Option Nat)
        (v c : Nat) (r : List Bool), st.size ≠ msz → st.size ≠ 0 →
        m.alloc = false :: r →
        insertN msz m st w (c + 1) v =
          insertLoop msz v c ⟨m.heap, m.fresh, r⟩ st none none) ∧
    (∃ m2 st2, insertN 100 (⟨[(1, ⟨none, none, 10⟩)], 2, [false]⟩ : Mem Nat)
          ⟨some 1, some 1, 1⟩ (some 1) 2 7 = some (some 2, m2, st2) ∧
        st2.size = 2 ∧ valsN m2 2 st2.head = some [10, 7]) ∧
    (∀ (msz : Nat) (m : Mem Nat) (st : Storage) (w : Option Nat)
        (v : Nat) (rest : List Nat) (r : List Bool), st.size ≠ msz →
        st.size ≠ 0 → m.alloc = false :: r →
        insertRange msz m st w (v :: rest) = none) := by
  refine ⟨?_, ?_, ?_, ?_⟩
  · intro msz count v m st as bs hok hw hal hsz
    obtain ⟨m2, st2, blk, heq, hw2, _, _, hmap, hsz2⟩ :=
      insertLoop_success count hok hw hal hsz
    exact ⟨m2, st2, blk, heq, hw2, hmap, hsz2⟩
  · intro msz m st w v c r hsz hsz0 ha
    exact insertN_continues_after_fail hsz hsz0 ha
  · exact ⟨⟨[(2, ⟨none, some 1, 7⟩), (1, ⟨some 2, none, 10⟩)], 3, []⟩,
      ⟨some 1, some 2, 2⟩, rfl, rfl, rfl⟩
  · intro msz m st w v rest r hsz hsz0 ha
    exact insertRange_fail_ub hsz hsz0 ha

/-- Concrete instantiation of each hypothesis-bearing conjunct of the C4
theorem: two successful inserts into an empty list, one failed insert with
remaining count 0, and a failed range insert. -/
theorem insert_partial_failure_witness :
    (∃ m2 st2 blk,
        insertN 5 (⟨[], 0, []⟩ : Mem Nat) ⟨none, none, 0⟩ none 2 7 =
          some (fp blk none, m2, st2) ∧
        wf m2 st2 ([] ++ blk ++ []) ∧
        blk.map Prod.snd = List.replicate 2 7 ∧ st2.size = 0 + 2) ∧
    insertN 9 (⟨[(4, ⟨none, none, 3⟩)], 5, [false]⟩ : Mem Nat)
        ⟨some 4, some 4, 1⟩ (some 4) 1 8 =
      insertLoop 9 8 0 ⟨[(4, ⟨none, none, 3⟩)], 5, []⟩ ⟨some 4, some 4, 1⟩
        none none ∧
    insertRange 9 (⟨[(4, ⟨none, none, 3⟩)], 5, [false]⟩ : Mem Nat)
        ⟨some 4, some 4, 1⟩ (some 4) [8, 6] = none :=
  ⟨insert_partial_failure.1 5 2 7 ⟨[], 0, []⟩ ⟨none, none, 0⟩ [] []
      (by decide) (by decide) rfl (by decide),
    insert_partial_failure.2.1 9 ⟨[(4, ⟨none, none, 3⟩)], 5, [false]⟩
      ⟨some 4, some 4, 1⟩ (some 4) 8 0 [] (by decide) (by decide) rfl,
    insert_partial_failure.2.2.2 9 ⟨[(4, ⟨none, none, 3⟩)], 5, [false]⟩
      ⟨some 4, some 4, 1⟩ (some 4) 8 [6] [] (by decide) (by decide) rfl⟩

end SafeList
